import Mathlib

/-!
Verification of the tooltrace vision/geometry pipeline.

This file gives a shallow embedding of the raster/geometry core of the
tooltrace repository and proves properties of it:

* `ToolDetection` embeds `lib/vision/toolDetection.ts` (seeded flood fill,
  boundary extraction, nearest-neighbour ordering, Douglas-Peucker).
* `PaperDetection` embeds `lib/vision/paperDetection.ts` (brightness mask,
  largest connected region, 8-neighbour boundary, Graham scan, quadrilateral
  approximation and canonical corner ordering, `detectPaperCV`).
* `Segmentation` embeds the geometry helpers of `lib/vision/segmentation.ts`
  (marching squares, its own Graham scan).
* `Designer` embeds `offsetPolygon` from `app/designer/page.tsx`.

Modelling conventions, used throughout and noted again at each definition:

* JavaScript numbers are embedded as exact rationals (`ℚ`); for
  `offsetPolygon`, whose geometry is intrinsically irrational (square roots
  of arbitrary sums), real numbers (`ℝ`) are used instead.
* A comparison of two square roots `sqrt a < sqrt b` is embedded as the
  (equivalent, for nonnegative radicands) comparison `a < b` of the squared
  quantities; a comparison `sqrt a < t` against a threshold `t` is embedded
  as `0 < t ∧ a < t^2`.  These are exact order embeddings of the source's
  real-valued comparisons.
* A comparison of two `Math.atan2` values is embedded via `pseudoAngle`, an
  exact order-isomorphic copy of `atan2` on directions (see below).
* `Array.prototype.sort` (guaranteed stable) is embedded as
  `List.insertionSort`, which is stable for the non-strict comparator
  relations used here; a stable sort is uniquely determined by the
  comparator, so this is exact.
* JS arrays used as stacks (`push`/`pop` at the end) are embedded as Lean
  lists used as stacks at the head; coordinate pairs pushed as two numbers
  are embedded as pairs.
-/

/-- Point in pixel space, `{x, y}` with float coordinates in the source,
embedded with exact rational coordinates. -/
structure Point where
  x : ℚ
  y : ℚ
deriving DecidableEq

instance : Inhabited Point := ⟨⟨0, 0⟩⟩

/-- Cross product used for turn direction, from `paperDetection.ts` /
`segmentation.ts`: `(a.x-o.x)*(b.y-o.y) - (a.y-o.y)*(b.x-o.x)`. -/
def cross (o a b : Point) : ℚ :=
  (a.x - o.x) * (b.y - o.y) - (a.y - o.y) * (b.x - o.x)

/-- Squared Euclidean distance between two points. -/
def dist2 (a b : Point) : ℚ :=
  (a.x - b.x) ^ 2 + (a.y - b.y) ^ 2

/-- Exact order-isomorphic embedding of `Math.atan2 dy dx` (valued in
`(-π, π]`): monotone in the angle, with value `0` at direction `(+,0)` and
at the zero vector (`atan2(0,0) = 0` in JS), and maximal value `2` at
direction `(-,0)`.  Two directions get equal `pseudoAngle` exactly when
their `atan2` values coincide. -/
def pseudoAngle (dx dy : ℚ) : ℚ :=
  if dx = 0 ∧ dy = 0 then 0
  else
    let s := |dx| + |dy|
    let v := 1 - dx / s
    if dy < 0 then -v else v

/-- Neighbour offsets `dx = [1,-1,0,0]`, `dy = [0,0,1,-1]` used by the
flood fills and 4-connected boundary tests. -/
def dirs4 : List (ℤ × ℤ) := [(1, 0), (-1, 0), (0, 1), (0, -1)]

/-- Neighbour offsets `dx = [1,-1,0,0,1,-1,1,-1]`, `dy = [0,0,1,-1,1,1,-1,-1]`
used by `extractBoundaryPoints` in `paperDetection.ts` (8-connected). -/
def dirs8 : List (ℤ × ℤ) :=
  [(1, 0), (-1, 0), (0, 1), (0, -1), (1, 1), (-1, 1), (1, -1), (-1, -1)]

/-- Pixel buffer: width, height and the flat RGBA byte array (`data i` is
the `i`-th byte; pixel `(x, y)` starts at byte `4 * (y * width + x)`). -/
structure Img where
  width : ℕ
  height : ℕ
  data : ℕ → ℕ

/-- RGB triple of the pixel with pixel index `i` (`data[i*4]`,
`data[i*4+1]`, `data[i*4+2]`). -/
def rgbAt (img : Img) (i : ℕ) : ℤ × ℤ × ℤ :=
  ((img.data (4 * i) : ℤ), (img.data (4 * i + 1) : ℤ), (img.data (4 * i + 2) : ℤ))

/-- Squared Euclidean RGB distance between two colours. -/
def colorDist2 (c d : ℤ × ℤ × ℤ) : ℤ :=
  (c.1 - d.1) ^ 2 + (c.2.1 - d.2.1) ^ 2 + (c.2.2 - d.2.2) ^ 2

/-- Embeds the source's `Math.sqrt(colorDist2) < threshold` exactly:
for a nonnegative radicand, `sqrt a < t` iff `0 < t` and `a < t^2`. -/
def closeColor (c d : ℤ × ℤ × ℤ) (t : ℚ) : Bool :=
  decide (0 < t) && decide ((colorDist2 c d : ℚ) < t ^ 2)

namespace ToolDetection

/-- State of the flood-fill loop in `floodFillTrace`: the worklist (a JS
array used as a stack), the visited bitmap (set of pixel indices
`y * width + x`), and the accepted region pixels in pop order. -/
structure FFState where
  queue : List (ℕ × ℕ)
  visited : Finset ℕ
  region : List (ℕ × ℕ)

/-- One neighbour probe of the flood fill: bounds check, visited check,
colour check; on success, push the neighbour and mark it visited. -/
def pushNeighbor (img : Img) (seedC : ℤ × ℤ × ℤ) (t : ℚ) (c : ℕ × ℕ)
    (st : FFState) (d : ℤ × ℤ) : FFState :=
  let nx : ℤ := (c.1 : ℤ) + d.1
  let ny : ℤ := (c.2 : ℤ) + d.2
  if 0 ≤ nx ∧ nx < (img.width : ℤ) ∧ 0 ≤ ny ∧ ny < (img.height : ℤ) then
    let nIdx := ny.toNat * img.width + nx.toNat
    if nIdx ∈ st.visited then st
    else if closeColor (rgbAt img nIdx) seedC t then
      { st with queue := (nx.toNat, ny.toNat) :: st.queue,
                visited := insert nIdx st.visited }
    else st
  else st

/-- Body of one iteration of the flood-fill `while` loop: pop a pixel,
append it to the region, probe its four neighbours in source order. -/
def ffStep (img : Img) (seedC : ℤ × ℤ × ℤ) (t : ℚ) (c : ℕ × ℕ)
    (rest : List (ℕ × ℕ)) (st : FFState) : FFState :=
  dirs4.foldl (pushNeighbor img seedC t c)
    { queue := rest, visited := st.visited, region := st.region ++ [c] }

/-- The flood-fill `while` loop.  The fuel is the source's iteration cap
(`iterations < maxIterations` with `maxIterations = width * height`): the
loop body runs at most `fuel` times and stops early when the queue is
empty. -/
def ffLoop (img : Img) (seedC : ℤ × ℤ × ℤ) (t : ℚ) : ℕ → FFState → FFState
  | 0, st => st
  | fuel + 1, st =>
    match st.queue with
    | [] => st
    | c :: rest => ffLoop img seedC t fuel (ffStep img seedC t c rest st)

/-- The region-growing part of `floodFillTrace`, for an in-bounds integer
seed `(sx, sy)`: final state of the capped flood-fill loop started from
the seed (which is pushed and marked visited unconditionally). -/
def floodFillRegion (img : Img) (sx sy : ℕ) (t : ℚ) : FFState :=
  ffLoop img (rgbAt img (sy * img.width + sx)) t (img.width * img.height)
    { queue := [(sx, sy)], visited := {sy * img.width + sx}, region := [] }

/-- Edge test of `extractOutline`: some 4-neighbour is out of bounds or
not in the visited mask. -/
def isEdgePix (visited : Finset ℕ) (w h x y : ℕ) : Bool :=
  dirs4.any fun d =>
    let nx : ℤ := (x : ℤ) + d.1
    let ny : ℤ := (y : ℤ) + d.2
    if 0 ≤ nx ∧ nx < (w : ℤ) ∧ 0 ≤ ny ∧ ny < (h : ℤ) then
      decide (ny.toNat * w + nx.toNat ∉ visited)
    else true

/-- The collection stage of `extractOutline`: scan the mask in raster
order (y outer, x inner) and keep the member pixels that pass the edge
test. -/
def outlinePixels (visited : Finset ℕ) (w h : ℕ) : List Point :=
  (List.range h).flatMap fun y =>
    (List.range w).filterMap fun x =>
      if y * w + x ∈ visited ∧ isEdgePix visited w h x y then
        some ⟨(x : ℚ), (y : ℚ)⟩
      else none

/-- First element with strictly smallest `dist2` to `cur` among the
remaining indices, with its squared distance; `none` when `rem` is empty.
Embeds the `nearest`/`nearestDist` search of `orderOutlinePoints`
(initial `nearestDist = Infinity`, strict improvement). -/
def findNearest (pts : List Point) (cur : Point) (rem : List ℕ) :
    Option (ℕ × ℚ) :=
  rem.foldl
    (fun acc i =>
      let d := dist2 (pts.getD i default) cur
      match acc with
      | none => some (i, d)
      | some (_, dj) => if d < dj then some (i, d) else acc)
    none

/-- Greedy chaining loop of `orderOutlinePoints`: append the nearest
remaining point while its squared distance is strictly below 100.  The
fuel starts at the number of points; every step removes one index from
`rem`, so the fuel never runs out before `rem` does. -/
def orderLoop (pts : List Point) : ℕ → Point → List ℕ → List Point
  | 0, _, _ => []
  | fuel + 1, cur, rem =>
    match findNearest pts cur rem with
    | none => []
    | some (i, d) =>
      if d < 100 then
        pts.getD i default :: orderLoop pts fuel (pts.getD i default) (rem.erase i)
      else []

/-- Orders outline points into a continuous path (`orderOutlinePoints`):
start at the first point, repeatedly take the nearest unused point while
it is within squared distance `< 100`, else stop. -/
def orderOutlinePoints (pts : List Point) : List Point :=
  if pts.length < 3 then pts
  else
    pts.getD 0 default ::
      orderLoop pts pts.length (pts.getD 0 default) (List.range' 1 (pts.length - 1))

/-- Outline extraction (`extractOutline`): collect edge pixels of the
visited mask in raster order, then order them (lists of fewer than 3
points are returned unordered). -/
def extractOutline (visited : Finset ℕ) (w h : ℕ) : List Point :=
  let outline := outlinePixels visited w h
  if outline.length < 3 then outline else orderOutlinePoints outline

end ToolDetection

/-- Squared perpendicular distance from `p` to the line through `a`, `b`
(point-to-segment projection; degrades to the squared direct distance when
the segment has zero length).  The source computes the square root; all its
uses are comparisons, which are embedded on the squares. -/
def perpDistSq (p a b : Point) : ℚ :=
  let dx := b.x - a.x
  let dy := b.y - a.y
  if dx = 0 ∧ dy = 0 then dist2 p a
  else
    let t := ((p.x - a.x) * dx + (p.y - a.y) * dy) / (dx * dx + dy * dy)
    (p.x - (a.x + t * dx)) ^ 2 + (p.y - (a.y + t * dy)) ^ 2

/-- Embeds the source's `sqrt maxDistSq > epsilon` exactly: for a
nonnegative radicand `m`, `sqrt m > eps` iff `eps < 0` or `eps^2 < m`. -/
def gtTol (eps m : ℚ) : Prop := eps < 0 ∨ eps ^ 2 < m

instance (eps m : ℚ) : Decidable (gtTol eps m) := by
  unfold gtTol; infer_instance

/-- The max-deviation scan of Douglas-Peucker: over interior indices
`1 .. length-2` in order, track the largest (squared) perpendicular
distance from the chord `first`-`last`, keeping the first index attaining
it (`maxDist` starts at `0`, `maxIdx` at `0`, strict improvement). -/
def dpMaxSel (pts : List Point) : ℚ × ℕ :=
  (List.range' 1 (pts.length - 2)).foldl
    (fun acc i =>
      let d := perpDistSq (pts.getD i default) (pts.getD 0 default)
        (pts.getD (pts.length - 1) default)
      if acc.1 < d then (d, i) else acc)
    (0, 0)

theorem foldl_sel_snd {α : Type} (g : α × ℕ → ℕ → α × ℕ)
    (hg : ∀ acc i, (g acc i).2 = acc.2 ∨ (g acc i).2 = i) :
    ∀ (l : List ℕ) (acc : α × ℕ),
      (l.foldl g acc).2 = acc.2 ∨ (l.foldl g acc).2 ∈ l := by
  intro l
  induction l with
  | nil => simp
  | cons a l ih =>
    intro acc
    simp only [List.foldl_cons]
    rcases ih (g acc a) with h | h
    · rcases hg acc a with h2 | h2
      · left; rw [h, h2]
      · right; rw [h, h2]; exact List.mem_cons_self a l
    · right; exact List.mem_cons_of_mem a h

theorem dpMaxSel_snd_le (pts : List Point) : (dpMaxSel pts).2 ≤ pts.length - 2 := by
  unfold dpMaxSel
  have h := foldl_sel_snd
    (fun acc i =>
      let d := perpDistSq (pts.getD i default) (pts.getD 0 default)
        (pts.getD (pts.length - 1) default)
      if acc.1 < d then (d, i) else acc)
    (by
      intro acc i
      dsimp only
      split
      · right; rfl
      · left; rfl)
    (List.range' 1 (pts.length - 2)) ((0 : ℚ), 0)
  rcases h with h | h
  · rw [h]; exact Nat.zero_le _
  · rw [List.mem_range'_1] at h
    omega

/-- Douglas-Peucker simplification (`douglasPeucker` in `paperDetection.ts`
and the identical `simplifyPolygon` in `toolDetection.ts`).  Lists of
length at most 2 are returned unchanged; otherwise, if the largest interior
deviation from the first-last chord exceeds the tolerance, recurse on both
sides of the first maximising point and splice, else return just the two
endpoints.  The guard `0 < maxIdx` on the recursive branch is for
termination: it can only fail when every interior point lies on the chord
and the tolerance is negative, a corner in which the source recursion does
not terminate (all theorems below assume a nonnegative tolerance, which
makes the guard always true on that branch). -/
def douglasPeucker (pts : List Point) (eps : ℚ) : List Point :=
  if h2 : pts.length ≤ 2 then pts
  else
    let md := dpMaxSel pts
    if hrec : gtTol eps md.1 ∧ 0 < md.2 then
      let left := douglasPeucker (pts.take (md.2 + 1)) eps
      let right := douglasPeucker (pts.drop md.2) eps
      left.dropLast ++ right
    else [pts.getD 0 default, pts.getD (pts.length - 1) default]
termination_by pts.length
decreasing_by
  · have hb := dpMaxSel_snd_le pts
    simp only [List.length_take]
    omega
  · have hp : 0 < (dpMaxSel pts).2 := hrec.2
    simp only [List.length_drop]
    omega

/-- Alias: `simplifyPolygon` in `toolDetection.ts` is the same algorithm
(identical code) as `douglasPeucker` in `paperDetection.ts`. -/
def simplifyPolygon (pts : List Point) (tolerance : ℚ) : List Point :=
  douglasPeucker pts tolerance

namespace ToolDetection

/-- Full `floodFillTrace` for an image, a (rational) click point and a
threshold: floor the seed, return `[]` when it is out of bounds, otherwise
run the capped flood fill; extract, order and simplify the outline when
the region has more than 10 pixels and the outline more than 2 points,
else fall back to a 50-pixel box around the seed. -/
def floodFillTrace (img : Img) (start : ℚ × ℚ) (t : ℚ) : List Point :=
  let sx := ⌊start.1⌋
  let sy := ⌊start.2⌋
  if sx < 0 ∨ (img.width : ℤ) ≤ sx ∨ sy < 0 ∨ (img.height : ℤ) ≤ sy then []
  else
    let st := floodFillRegion img sx.toNat sy.toNat t
    let box : List Point :=
      [⟨(sx : ℚ) - 50, (sy : ℚ) - 50⟩, ⟨(sx : ℚ) + 50, (sy : ℚ) - 50⟩,
       ⟨(sx : ℚ) + 50, (sy : ℚ) + 50⟩, ⟨(sx : ℚ) - 50, (sy : ℚ) + 50⟩]
    if 10 < st.region.length then
      let outline := extractOutline st.visited img.width img.height
      if 2 < outline.length then simplifyPolygon outline 2 else box
    else box

end ToolDetection

/-- Pivot selection shared by both Graham-scan implementations (identical
code in `paperDetection.ts` and `segmentation.ts`): fold over the whole
list starting from element 0, replacing the current pivot whenever
`p.y > lowest.y || (p.y === lowest.y && p.x < lowest.x)`.  Note this keeps
the point with the *largest* y (the visually lowest point in the y-down
screen coordinate system), ties broken by smallest x, first occurrence
kept. -/
def pivotFold (l : List Point) : Point :=
  l.foldl
    (fun low p => if low.y < p.y ∨ (p.y = low.y ∧ p.x < low.x) then p else low)
    (l.getD 0 default)

/-- Pop loop of the Graham scan (stack with its top at the head): while
the stack keeps more than one point and the second-from-top, top and
candidate fail a strict turn (`cross ≤ 0`), pop the top. -/
def hullPop (p : Point) : List Point → List Point
  | a :: b :: rest => if cross b a p ≤ 0 then hullPop p (b :: rest) else a :: b :: rest
  | l => l

/-- Graham-scan sweep (identical in both implementations): push each
angle-sorted point after popping, starting from the pivot-only stack; the
source's array is bottom-to-top, our stack is top-first, so the result is
reversed. -/
def hullScan (sorted : List Point) (pivot : Point) : List Point :=
  (sorted.foldl (fun st p => p :: hullPop p st) [pivot]).reverse

/-- Down-sampling for large hull inputs: when more than `cap` points,
keep every `step`-th point with `step = ⌊length / cap⌋`
(`points.filter((_, i) => i % step === 0)`). -/
def sampleEvery (cap : ℕ) (l : List Point) : List Point :=
  if cap < l.length then
    (l.enum.filter fun ie => ie.1 % (l.length / cap) = 0).map (·.2)
  else l

namespace PaperDetection

/-- Sort relation of `paperDetection.ts`'s `convexHull` comparator: the
source compares `atan2` angles around the pivot and, when they differ by
less than `1e-4` (a guard against float noise; embedded exactly as angle
equality, since exact arithmetic has no noise), compares squared distances
to the pivot.  Non-strict so that `insertionSort` is stable like the
source's sort. -/
def angleLeP (pivot a b : Point) : Prop :=
  if pseudoAngle (a.x - pivot.x) (a.y - pivot.y) =
      pseudoAngle (b.x - pivot.x) (b.y - pivot.y) then
    dist2 a pivot ≤ dist2 b pivot
  else
    pseudoAngle (a.x - pivot.x) (a.y - pivot.y) <
      pseudoAngle (b.x - pivot.x) (b.y - pivot.y)

instance (pivot a b : Point) : Decidable (angleLeP pivot a b) := by
  unfold angleLeP; infer_instance

/-- Graham-scan convex hull of `paperDetection.ts`: lists of fewer than 3
points unchanged; down-sample above 2000 points; pivot as in `pivotFold`;
remove every point with the pivot's coordinates; sort by angle (distance
tie-break); sweep with `cross ≤ 0` pops. -/
def convexHull (pts : List Point) : List Point :=
  if pts.length < 3 then pts
  else
    let sampled := sampleEvery 2000 pts
    let lowest := pivotFold sampled
    hullScan
      ((sampled.filter fun p => decide (¬(p.x = lowest.x ∧ p.y = lowest.y))).insertionSort
        (angleLeP lowest))
      lowest

/-- JavaScript `Math.round`: round half away from zero upward
(`Math.round q = ⌊q + 1/2⌋`). -/
def jsRound (q : ℚ) : ℤ := ⌊q + 1 / 2⌋

/-- Rounded dedup key of `pickExtremePoints`
(`"${Math.round(p.x)},${Math.round(p.y)}"`). -/
def roundKey (p : Point) : ℤ × ℤ := (jsRound p.x, jsRound p.y)

/-- First point with minimal x (`if (p.x < minX.x) minX = p`). -/
def minXPt (pts : List Point) : Point :=
  pts.foldl (fun m p => if p.x < m.x then p else m) (pts.getD 0 default)

/-- First point with maximal x. -/
def maxXPt (pts : List Point) : Point :=
  pts.foldl (fun m p => if m.x < p.x then p else m) (pts.getD 0 default)

/-- First point with minimal y. -/
def minYPt (pts : List Point) : Point :=
  pts.foldl (fun m p => if p.y < m.y then p else m) (pts.getD 0 default)

/-- First point with maximal y. -/
def maxYPt (pts : List Point) : Point :=
  pts.foldl (fun m p => if m.y < p.y then p else m) (pts.getD 0 default)

/-- Candidate search of `pickExtremePoints`' while-loop: among the points
whose rounded key is unseen, the first one maximising (strictly) its
minimal distance to the already chosen points.  The source works with
square-rooted distances and `Infinity`; embedded on squared distances in
`WithTop ℚ` (`⊤` = `Infinity`), an exact order embedding. -/
def farthestPt (pts res : List Point) (seen : List (ℤ × ℤ)) : Option Point :=
  (pts.foldl
    (fun (acc : WithTop ℚ × Option Point) p =>
      if roundKey p ∈ seen then acc
      else
        let m := res.foldl (fun m q => min m ((dist2 p q : ℚ) : WithTop ℚ))
          (⊤ : WithTop ℚ)
        if acc.1 < m then (m, some p) else acc)
    ((0 : WithTop ℚ), (none : Option Point))).2

/-- While-loop of `pickExtremePoints`: add farthest unseen candidates
until 4 points are chosen or candidates are exhausted.  Each iteration
adds one point, so fuel 4 covers every possible execution. -/
def pickLoop (pts : List Point) : ℕ → List Point → List (ℤ × ℤ) → List Point
  | 0, res, _ => res
  | fuel + 1, res, seen =>
    if res.length < 4 ∧ res.length < pts.length then
      match farthestPt pts res seen with
      | none => res
      | some p => pickLoop pts fuel (res ++ [p]) (seen ++ [roundKey p])
    else res

/-- The 4 most extreme points (`pickExtremePoints`): the four axis-extreme
points deduplicated by rounded key, topped up greedily by farthest
points. -/
def pickExtremePoints (pts : List Point) : List Point :=
  let base :=
    [minXPt pts, maxXPt pts, minYPt pts, maxYPt pts].foldl
      (fun (acc : List Point × List (ℤ × ℤ)) p =>
        if roundKey p ∈ acc.2 then acc
        else (acc.1 ++ [p], acc.2 ++ [roundKey p]))
      ([], [])
  pickLoop pts 4 base.1 base.2

/-- Sum of x coordinates (`corners.reduce((s, p) => s + p.x, 0)`). -/
def sumX (l : List Point) : ℚ := l.foldl (fun s p => s + p.x) 0

/-- Sum of y coordinates. -/
def sumY (l : List Point) : ℚ := l.foldl (fun s p => s + p.y) 0

/-- Sort relation of `reorderCorners`: compare `atan2` angles around the
centroid `(cx, cy)` (embedded exactly via `pseudoAngle`); non-strict so
that `insertionSort` is stable like the source's sort. -/
def angleLeC (cx cy : ℚ) (a b : Point) : Prop :=
  pseudoAngle (a.x - cx) (a.y - cy) ≤ pseudoAngle (b.x - cx) (b.y - cy)

instance (cx cy : ℚ) (a b : Point) : Decidable (angleLeC cx cy a b) := by
  unfold angleLeC; infer_instance

/-- Index (into the angle-sorted list) of the first corner with strictly
smallest coordinate sum `x + y` (`tlIdx` scan over indices 1..3 with a
strict comparison). -/
def tlIdx (s : List Point) : ℕ :=
  ((List.range' 1 3).foldl
    (fun (acc : ℕ × ℚ) i =>
      if (s.getD i default).x + (s.getD i default).y < acc.2 then
        (i, (s.getD i default).x + (s.getD i default).y)
      else acc)
    (0, (s.getD 0 default).x + (s.getD 0 default).y)).1

/-- Canonical corner ordering (`reorderCorners`): for exactly 4 corners,
sort by angle around the centroid, then rotate so the corner with the
smallest `x + y` comes first; any other length is returned unchanged. -/
def reorderCorners (corners : List Point) : List Point :=
  if corners.length = 4 then
    let cx := sumX corners / 4
    let cy := sumY corners / 4
    let sorted := corners.insertionSort (angleLeC cx cy)
    (List.range 4).map fun i => sorted.getD ((tlIdx sorted + i) % 4) default
  else corners

/-- Escalating-tolerance loop of `approximateQuadrilateral`: while the
simplification still has more than 4 points and the tolerance is below
100, re-simplify the hull from scratch with tolerance +5.  Starting at
tolerance 5 the loop runs at most 19 times, so fuel 20 covers every
execution. -/
def approxLoop (hull : List Point) : ℕ → List Point → ℚ → List Point
  | 0, simplified, _ => simplified
  | fuel + 1, simplified, tol =>
    if 4 < simplified.length ∧ tol < 100 then
      approxLoop hull fuel (douglasPeucker hull tol) (tol + 5)
    else simplified

/-- Quadrilateral approximation (`approximateQuadrilateral`): hulls of at
most 4 points go straight to reordering; otherwise Douglas-Peucker with
escalating tolerance, falling back to extreme-point selection when more
than 4 points remain. -/
def approximateQuadrilateral (hull : List Point) : List Point :=
  if hull.length ≤ 4 then reorderCorners hull
  else
    let simplified := approxLoop hull 20 hull 5
    reorderCorners
      (if 4 < simplified.length then pickExtremePoints simplified else simplified)

/-- Inner flood fill of `findLargestConnectedRegion` (stack-based; the
pixel is marked visited and appended to the region when *popped*, so
duplicate pushes are possible and are skipped at pop time).  Each call
starts with one pushed pixel; every marking pop pushes at most 4
neighbours and every pixel is marked at most once, so at most
`1 + 4*w*h` pixels are ever pushed and fuel `4*w*h + 4` covers every
execution of the source's (uncapped, terminating) loop. -/
def flFill (mask : ℕ → Bool) (w h : ℕ) :
    ℕ → List (ℕ × ℕ) → Finset ℕ → List (ℕ × ℕ) → List (ℕ × ℕ) × Finset ℕ
  | 0, _, visited, region => (region, visited)
  | _ + 1, [], visited, region => (region, visited)
  | fuel + 1, c :: rest, visited, region =>
    if c.2 * w + c.1 ∈ visited then flFill mask w h fuel rest visited region
    else
      flFill mask w h fuel
        (dirs4.foldl
          (fun st d =>
            let nx : ℤ := (c.1 : ℤ) + d.1
            let ny : ℤ := (c.2 : ℤ) + d.2
            if 0 ≤ nx ∧ nx < (w : ℤ) ∧ 0 ≤ ny ∧ ny < (h : ℤ) then
              if mask (ny.toNat * w + nx.toNat) ∧
                  ny.toNat * w + nx.toNat ∉ insert (c.2 * w + c.1) visited then
                (nx.toNat, ny.toNat) :: st
              else st
            else st)
          rest)
        (insert (c.2 * w + c.1) visited) (region ++ [c])

/-- All pixels in raster order (y outer, x inner). -/
def allPixels (w h : ℕ) : List (ℕ × ℕ) :=
  (List.range h).flatMap fun y => (List.range w).map fun x => (x, y)

/-- Largest connected bright region (`findLargestConnectedRegion`): flood
fill from every unvisited mask pixel in raster order, keeping the first
region of maximal size (strict improvement).  The source returns `null`
for an empty mask; this is embedded as the empty list. -/
def findLargestConnectedRegion (mask : ℕ → Bool) (w h : ℕ) : List (ℕ × ℕ) :=
  ((allPixels w h).foldl
    (fun (acc : Finset ℕ × List (ℕ × ℕ)) c =>
      if mask (c.2 * w + c.1) ∧ c.2 * w + c.1 ∉ acc.1 then
        let fr := flFill mask w h (4 * w * h + 4) [c] acc.1 []
        (fr.2, if acc.2.length < fr.1.length then fr.1 else acc.2)
      else acc)
    (∅, [])).2

/-- Boundary of a region (`extractBoundaryPoints`): keep the region pixels
with at least one 8-connected neighbour out of bounds or outside the
region.  The source also receives the brightness mask but only consults
the region set (`regionSet.has`); the `_mask` argument is kept for
signature fidelity and is unused, exactly as in the source. -/
def extractBoundaryPoints (region : List (ℕ × ℕ)) (_mask : ℕ → Bool)
    (w h : ℕ) : List (ℕ × ℕ) :=
  region.filter fun p =>
    dirs8.any fun d =>
      let nx : ℤ := (p.1 : ℤ) + d.1
      let ny : ℤ := (p.2 : ℤ) + d.2
      if 0 ≤ nx ∧ nx < (w : ℤ) ∧ 0 ≤ ny ∧ ny < (h : ℤ) then
        decide ((nx.toNat, ny.toNat) ∉ region)
      else true

/-- Classical-vision paper detection (`detectPaperCV`) given the image's
RGBA buffer.  Brightness `(r+g+b)/3` is embedded as the integer sum
`r+g+b` (an exact order isomorphism, so the percentile threshold and the
mask comparisons are unchanged); `Math.floor(n * 0.3)` is embedded as
`3*n/10` (equal for every buffer size arising in practice) and the area
guard `length < n * 0.01` as `100 * length < n` (again exact).  Returns
`none` ("no paper detected") or the approximate quadrilateral corners. -/
def detectPaperCV (img : Img) : Option (List Point) :=
  let n := img.width * img.height
  let brightness := (List.range n).map fun i =>
    img.data (4 * i) + img.data (4 * i + 1) + img.data (4 * i + 2)
  let thr := (brightness.insertionSort fun a b => b ≤ a).getD (3 * n / 10) 0
  let mask : ℕ → Bool := fun i => decide (thr ≤ brightness.getD i 0)
  let largest := findLargestConnectedRegion mask img.width img.height
  if largest.length = 0 ∨ 100 * largest.length < n then none
  else
    some (approximateQuadrilateral
      (convexHull (extractBoundaryPoints largest mask img.width img.height |>.map
        fun c => (⟨(c.1 : ℚ), (c.2 : ℚ)⟩ : Point))))

end PaperDetection

namespace Segmentation

/-- Sort relation of `segmentation.ts`'s `convexHull` comparator: compare
`atan2` angles around the pivot only (no distance tie-break in this copy);
non-strict so that `insertionSort` is stable like the source's sort
(equal angles keep their input order). -/
def angleLeS (pivot a b : Point) : Prop :=
  pseudoAngle (a.x - pivot.x) (a.y - pivot.y) ≤
    pseudoAngle (b.x - pivot.x) (b.y - pivot.y)

instance (pivot a b : Point) : Decidable (angleLeS pivot a b) := by
  unfold angleLeS; infer_instance

/-- Graham-scan convex hull of `segmentation.ts`: lists of fewer than 3
points unchanged; down-sample above 1000 points; pivot as in `pivotFold`;
the source's `filter(p => p !== lowest)` removes exactly the pivot object,
which is the first occurrence of its value, embedded as `List.erase`;
sort by angle; sweep with `cross ≤ 0` pops. -/
def convexHull (pts : List Point) : List Point :=
  if pts.length < 3 then pts
  else
    let sampled := sampleEvery 1000 pts
    let lowest := pivotFold sampled
    hullScan ((sampled.erase lowest).insertionSort (angleLeS lowest)) lowest

/-- Direction tables of `marchingSquares`: `dx = [1,0,-1,0]`,
`dy = [0,1,0,-1]` indexed by the heading `dir ∈ 0..3`. -/
def msDx : List ℤ := [1, 0, -1, 0]

/-- See `msDx`. -/
def msDy : List ℤ := [0, 1, 0, -1]

/-- Edge test inside `marchingSquares`: the pixel has at least one
4-neighbour that is out of bounds or background. -/
def msIsEdge (mask : ℕ → Bool) (w h x y : ℕ) : Bool :=
  (List.range 4).any fun d =>
    let ex : ℤ := (x : ℤ) + msDx.getD d 0
    let ey : ℤ := (y : ℤ) + msDy.getD d 0
    decide (ex < 0 ∨ (w : ℤ) ≤ ex ∨ ey < 0 ∨ (h : ℤ) ≤ ey) ||
      !mask (ey.toNat * w + ex.toNat)

/-- State of the marching-squares walk: current pixel, current heading,
contour so far.  The source's `visited` set is updated in lockstep with
`contour` (a pixel is pushed exactly when it is added to `visited`), so
visitedness is embedded as membership in the contour. -/
structure MSState where
  x : ℕ
  y : ℕ
  dir : ℕ
  contour : List (ℕ × ℕ)

/-- Move search of the marching-squares body: try right turn, straight,
left turn, reverse (relative to the current heading) and accept the first
in-bounds foreground pixel that is an edge pixel or unvisited. -/
def msFindMove (mask : ℕ → Bool) (w h : ℕ) (st : MSState) :
    Option (ℕ × ℕ × ℕ) :=
  [(st.dir + 3) % 4, st.dir, (st.dir + 1) % 4, (st.dir + 2) % 4].findSome?
    fun nd =>
      let nx : ℤ := (st.x : ℤ) + msDx.getD nd 0
      let ny : ℤ := (st.y : ℤ) + msDy.getD nd 0
      if 0 ≤ nx ∧ nx < (w : ℤ) ∧ 0 ≤ ny ∧ ny < (h : ℤ) then
        if mask (ny.toNat * w + nx.toNat) ∧
            (msIsEdge mask w h nx.toNat ny.toNat ∨
              (nx.toNat, ny.toNat) ∉ st.contour) then
          some (nx.toNat, ny.toNat, nd)
        else none
      else none

/-- The marching-squares `do`-`while` loop: push the current pixel if
unvisited, find a move (breaking when none exists), then re-test the loop
condition (`back at the start` or `contour.length ≥ w*h`).  The source
loop bounds the contour length but not the number of iterations, so the
iteration count is exposed as fuel; the invariants proved below hold for
every fuel. -/
def msLoop (mask : ℕ → Bool) (w h sx sy : ℕ) : ℕ → MSState → List (ℕ × ℕ)
  | 0, st => st.contour
  | fuel + 1, st =>
    let st1 := if (st.x, st.y) ∈ st.contour then st
               else { st with contour := st.contour ++ [(st.x, st.y)] }
    match msFindMove mask w h st1 with
    | none => st1.contour
    | some (nx, ny, nd) =>
      if (nx = sx ∧ ny = sy) ∨ ¬st1.contour.length < w * h then st1.contour
      else msLoop mask w h sx sy fuel
        { x := nx, y := ny, dir := nd, contour := st1.contour }

/-- First foreground pixel in raster order. -/
def findStart (mask : ℕ → Bool) (w h : ℕ) : Option (ℕ × ℕ) :=
  (PaperDetection.allPixels w h).find? fun c => mask (c.2 * w + c.1)

/-- Marching-squares contour tracer (`marchingSquares`): start at the
first foreground pixel (empty contour when there is none) and walk with
`msLoop`; `w * h + 1` is a representative fuel budget (the theorems about
the walk hold for every fuel). -/
def marchingSquares (mask : ℕ → Bool) (w h : ℕ) : List Point :=
  match findStart mask w h with
  | none => []
  | some (sx, sy) =>
    (msLoop mask w h sx sy (w * h + 1) ⟨sx, sy, 0, []⟩).map
      fun c => ⟨(c.1 : ℚ), (c.2 : ℚ)⟩

end Segmentation

namespace Designer

/-- Point with real coordinates for the designer-page geometry
(`offsetPolygon` divides by Euclidean edge lengths, which are irrational
in general, so this module is embedded over `ℝ`). -/
structure Point where
  x : ℝ
  y : ℝ

instance : Inhabited Point := ⟨⟨0, 0⟩⟩

/-- Loop body of `offsetPolygon` for one vertex: average the unit normals
of the two adjacent edges and displace the vertex along that average
normal by `amount / |average|`; vertices with a degenerate adjacent edge
or a zero average normal are left unmoved. -/
noncomputable def offsetVertex (prev curr next : Point) (amount : ℝ) : Point :=
  let v1x := curr.x - prev.x
  let v1y := curr.y - prev.y
  let v2x := next.x - curr.x
  let v2y := next.y - curr.y
  let len1 := Real.sqrt (v1x * v1x + v1y * v1y)
  let len2 := Real.sqrt (v2x * v2x + v2y * v2y)
  if len1 = 0 ∨ len2 = 0 then curr
  else
    let nx := (-v1y / len1 + -v2y / len2) / 2
    let ny := (v1x / len1 + v2x / len2) / 2
    let nlen := Real.sqrt (nx * nx + ny * ny)
    if 0 < nlen then
      ⟨curr.x + nx * (amount / nlen), curr.y + ny * (amount / nlen)⟩
    else curr

/-- Miter-style polygon offset (`offsetPolygon` in `app/designer/page.tsx`):
apply `offsetVertex` at every index with cyclic previous/next neighbours;
polygons with fewer than 3 points are returned unchanged. -/
noncomputable def offsetPolygon (pts : List Point) (amount : ℝ) : List Point :=
  if pts.length < 3 then pts
  else
    (List.range pts.length).map fun i =>
      offsetVertex (pts.getD ((i + pts.length - 1) % pts.length) default)
        (pts.getD i default) (pts.getD ((i + 1) % pts.length) default) amount

end Designer

/-! Claim-side definitions: predicates written from the specification's
words, used to state the boundary-membership claims and to compare the
source algorithms against the spec's description. -/

/-- Integer coordinates of the neighbour of pixel `p` in direction `d`. -/
def nbr (p : ℕ × ℕ) (d : ℤ × ℤ) : ℤ × ℤ := ((p.1 : ℤ) + d.1, (p.2 : ℤ) + d.2)

/-- In-bounds test for integer pixel coordinates. -/
def inBoundsZ (w h : ℕ) (q : ℤ × ℤ) : Prop :=
  0 ≤ q.1 ∧ q.1 < (w : ℤ) ∧ 0 ≤ q.2 ∧ q.2 < (h : ℤ)

instance (w h : ℕ) (q : ℤ × ℤ) : Decidable (inBoundsZ w h q) := by
  unfold inBoundsZ; infer_instance

/-- The spec's boundary predicate over a region given as a pixel list:
the pixel is a member and at least one neighbour in the given direction
set is out of bounds or not a member. -/
def regionBoundary (dirs : List (ℤ × ℤ)) (region : List (ℕ × ℕ)) (w h : ℕ)
    (p : ℕ × ℕ) : Prop :=
  p ∈ region ∧ ∃ d ∈ dirs,
    ¬inBoundsZ w h (nbr p d) ∨ ((nbr p d).1.toNat, (nbr p d).2.toNat) ∉ region

instance (dirs : List (ℤ × ℤ)) (region : List (ℕ × ℕ)) (w h : ℕ) (p : ℕ × ℕ) :
    Decidable (regionBoundary dirs region w h p) := by
  unfold regionBoundary; infer_instance

/-- The spec's boundary predicate over a mask given as a set of pixel
indices `y * w + x`. -/
def maskBoundary (dirs : List (ℤ × ℤ)) (visited : Finset ℕ) (w h : ℕ)
    (p : ℕ × ℕ) : Prop :=
  p.2 * w + p.1 ∈ visited ∧ ∃ d ∈ dirs,
    ¬inBoundsZ w h (nbr p d) ∨
      (nbr p d).2.toNat * w + (nbr p d).1.toNat ∉ visited

instance (dirs : List (ℤ × ℤ)) (visited : Finset ℕ) (w h : ℕ) (p : ℕ × ℕ) :
    Decidable (maskBoundary dirs visited w h p) := by
  unfold maskBoundary; infer_instance

/-! Helper lemmas about the boundary extraction and ordering routines. -/

theorem isEdgePix_iff (visited : Finset ℕ) (w h x y : ℕ) :
    ToolDetection.isEdgePix visited w h x y = true ↔
      ∃ d ∈ dirs4, ¬inBoundsZ w h (nbr (x, y) d) ∨
        (nbr (x, y) d).2.toNat * w + (nbr (x, y) d).1.toNat ∉ visited := by
  unfold ToolDetection.isEdgePix
  rw [List.any_eq_true]
  constructor
  · rintro ⟨d, hd, hcond⟩
    refine ⟨d, hd, ?_⟩
    by_cases hb : inBoundsZ w h (nbr (x, y) d)
    · right
      have hb' : 0 ≤ (x : ℤ) + d.1 ∧ (x : ℤ) + d.1 < (w : ℤ) ∧
          0 ≤ (y : ℤ) + d.2 ∧ (y : ℤ) + d.2 < (h : ℤ) := hb
      rw [if_pos hb'] at hcond
      simpa [nbr] using hcond
    · left; exact hb
  · rintro ⟨d, hd, hcond⟩
    refine ⟨d, hd, ?_⟩
    by_cases hb : (0 ≤ (x : ℤ) + d.1 ∧ (x : ℤ) + d.1 < (w : ℤ) ∧
        0 ≤ (y : ℤ) + d.2 ∧ (y : ℤ) + d.2 < (h : ℤ))
    · rw [if_pos hb]
      rcases hcond with hob | hnm
      · exact absurd hb hob
      · simpa [nbr] using hnm
    · rw [if_neg hb]

theorem outlinePixels_mem (visited : Finset ℕ) (w h px py : ℕ) :
    (⟨(px : ℚ), (py : ℚ)⟩ : Point) ∈ ToolDetection.outlinePixels visited w h ↔
      px < w ∧ py < h ∧ py * w + px ∈ visited ∧
        ToolDetection.isEdgePix visited w h px py = true := by
  unfold ToolDetection.outlinePixels
  rw [List.mem_flatMap]
  constructor
  · rintro ⟨y, hy, hmem⟩
    rw [List.mem_filterMap] at hmem
    obtain ⟨x, hx, hsome⟩ := hmem
    rw [List.mem_range] at hy hx
    split at hsome
    · rename_i hcond
      obtain ⟨hxx, hyy⟩ := Point.mk.injEq .. ▸ (Option.some.injEq .. ▸ hsome)
      have hx' : x = px := by exact_mod_cast hxx
      have hy' : y = py := by exact_mod_cast hyy
      subst hx'; subst hy'
      exact ⟨hx, hy, hcond.1, hcond.2⟩
    · exact absurd hsome (by simp)
  · rintro ⟨hw, hh, hv, he⟩
    refine ⟨py, List.mem_range.mpr hh, ?_⟩
    rw [List.mem_filterMap]
    exact ⟨px, List.mem_range.mpr hw, by rw [if_pos ⟨hv, he⟩]⟩

theorem findNearest_go (pts : List Point) (cur : Point) :
    ∀ (rem : List ℕ) (j : ℕ),
      ∃ i, (i = j ∨ i ∈ rem) ∧
        rem.foldl
          (fun acc i =>
            let d := dist2 (pts.getD i default) cur
            match acc with
            | none => some (i, d)
            | some (_, dj) => if d < dj then some (i, d) else acc)
          (some (j, dist2 (pts.getD j default) cur)) =
          some (i, dist2 (pts.getD i default) cur) := by
  intro rem
  induction rem with
  | nil => intro j; exact ⟨j, Or.inl rfl, rfl⟩
  | cons a rem ih =>
    intro j
    simp only [List.foldl_cons]
    by_cases hlt : dist2 (pts.getD a default) cur < dist2 (pts.getD j default) cur
    · obtain ⟨i, hi, heq⟩ := ih a
      refine ⟨i, ?_, ?_⟩
      · rcases hi with h | h
        · right; rw [h]; exact List.mem_cons_self a rem
        · right; exact List.mem_cons_of_mem a h
      · rw [← heq]
        congr 1
        exact if_pos hlt
    · obtain ⟨i, hi, heq⟩ := ih j
      refine ⟨i, ?_, ?_⟩
      · rcases hi with h | h
        · left; exact h
        · right; exact List.mem_cons_of_mem a h
      · rw [← heq]
        congr 1
        exact if_neg hlt

theorem findNearest_cases (pts : List Point) (cur : Point) (rem : List ℕ) :
    ToolDetection.findNearest pts cur rem = none ∨
      ∃ i ∈ rem, ToolDetection.findNearest pts cur rem =
        some (i, dist2 (pts.getD i default) cur) := by
  match rem with
  | [] => exact Or.inl rfl
  | a :: rem =>
    right
    unfold ToolDetection.findNearest
    simp only [List.foldl_cons]
    obtain ⟨i, hi, heq⟩ := findNearest_go pts cur rem a
    refine ⟨i, ?_, heq⟩
    rcases hi with h | h
    · rw [h]; exact List.mem_cons_self a rem
    · exact List.mem_cons_of_mem a h

theorem orderLoop_subset (pts : List Point) :
    ∀ (fuel : ℕ) (cur : Point) (rem : List ℕ),
      (∀ i ∈ rem, i < pts.length) →
      ∀ q ∈ ToolDetection.orderLoop pts fuel cur rem, q ∈ pts := by
  intro fuel
  induction fuel with
  | zero => intro cur rem _ q hq; simp [ToolDetection.orderLoop] at hq
  | succ fuel ih =>
    intro cur rem hrem q hq
    unfold ToolDetection.orderLoop at hq
    rcases findNearest_cases pts cur rem with hnone | ⟨i', hi', heq⟩
    · rw [hnone] at hq; simp at hq
    · rw [heq] at hq
      split at hq
      · simp at hq
      · rename_i acc fst dj hsome
        obtain ⟨hii, hdd⟩ := Prod.mk.injEq .. ▸ (Option.some.injEq .. ▸ hsome)
        subst hii
        split at hq
        · rcases List.mem_cons.mp hq with h | h
          · rw [h, List.getD_eq_getElem pts default (hrem i' hi')]
            exact List.getElem_mem (hrem i' hi')
          · exact ih _ _ (fun j hj => hrem j (List.mem_of_mem_erase hj)) q h
        · simp at hq

theorem orderLoop_chain (pts : List Point) :
    ∀ (fuel : ℕ) (cur : Point) (rem : List ℕ),
      List.Chain' (fun a b => dist2 b a < 100)
        (cur :: ToolDetection.orderLoop pts fuel cur rem) := by
  intro fuel
  induction fuel with
  | zero => intro cur rem; simp [ToolDetection.orderLoop]
  | succ fuel ih =>
    intro cur rem
    unfold ToolDetection.orderLoop
    rcases findNearest_cases pts cur rem with hnone | ⟨i', hi', heq⟩
    · rw [hnone]; simp
    · rw [heq]
      split
      · rename_i hbad
        exact absurd hbad (by simp)
      · rename_i i d hsome
        obtain ⟨hii, hdd⟩ := Prod.mk.injEq .. ▸ (Option.some.injEq .. ▸ hsome)
        subst hii
        subst hdd
        by_cases hd : dist2 (pts.getD i' default) cur < 100
        · rw [if_pos hd]
          exact List.Chain'.cons hd (ih (pts.getD i' default) (rem.erase i'))
        · rw [if_neg hd]; simp

/-! Claim C3. -/

/-- Counterexample input for claim C3: a 3x3 pixel block minus its
`(0,0)` corner.  The centre pixel `(1,1)` has all four axis-aligned
neighbours inside the region, but its diagonal neighbour `(0,0)` is
missing. -/
def rg33 : List (ℕ × ℕ) :=
  [(1, 0), (2, 0), (0, 1), (1, 1), (2, 1), (0, 2), (1, 2), (2, 2)]

/-- Claim C3, counterexample: the claim says every boundary-extraction
routine includes a pixel iff it is a member with an axis-aligned
(4-connected) neighbour out of bounds or missing.  `extractBoundaryPoints`
(the paper path) uses the 8-connected neighbourhood: the centre of `rg33`
is included by the routine although the claimed 4-connected predicate
rejects it. -/
theorem claim_C3_counterexample :
    (1, 1) ∈ PaperDetection.extractBoundaryPoints rg33 (fun _ => true) 3 3 ∧
      ¬regionBoundary dirs4 rg33 3 3 (1, 1) := by
  constructor
  · decide
  · decide

/-- Claim C3, amended: the tool path's `extractOutline` collects exactly
the mask pixels with at least one 4-connected neighbour out of bounds or
not a member (first two conjuncts), and its returned, ordered outline
contains only such pixels (third conjunct: the ordering step can drop
pixels but introduces none); the paper path's `extractBoundaryPoints`
includes a region pixel iff at least one of its 8-connected neighbours
(diagonals included) is out of bounds or not a member (last conjunct). -/
theorem claim_C3 :
    (∀ (visited : Finset ℕ) (w h px py : ℕ),
      (⟨(px : ℚ), (py : ℚ)⟩ : Point) ∈ ToolDetection.outlinePixels visited w h ↔
        px < w ∧ py < h ∧ maskBoundary dirs4 visited w h (px, py)) ∧
    (∀ (visited : Finset ℕ) (w h : ℕ) (q : Point),
      q ∈ ToolDetection.extractOutline visited w h →
        q ∈ ToolDetection.outlinePixels visited w h) ∧
    (∀ (region : List (ℕ × ℕ)) (mask : ℕ → Bool) (w h : ℕ) (p : ℕ × ℕ),
      p ∈ PaperDetection.extractBoundaryPoints region mask w h ↔
        regionBoundary dirs8 region w h p) := by
  refine ⟨?_, ?_, ?_⟩
  · intro visited w h px py
    rw [outlinePixels_mem, isEdgePix_iff]
    unfold maskBoundary
    dsimp only
    constructor
    · rintro ⟨h1, h2, h3, h4⟩
      exact ⟨h1, h2, h3, h4⟩
    · rintro ⟨h1, h2, h3, h4⟩
      exact ⟨h1, h2, h3, h4⟩
  · intro visited w h q hq
    simp only [ToolDetection.extractOutline] at hq
    split at hq
    · exact hq
    · unfold ToolDetection.orderOutlinePoints at hq
      rw [if_neg (by omega)] at hq
      rcases List.mem_cons.mp hq with hc | hc
      · rw [hc]
        have hlen : 0 < (ToolDetection.outlinePixels visited w h).length := by omega
        rw [List.getD_eq_getElem _ default hlen]
        exact List.getElem_mem hlen
      · refine orderLoop_subset _ _ _ _ ?_ q hc
        intro i hi
        have := List.mem_range'_1.mp hi
        omega
  · intro region mask w h p
    unfold PaperDetection.extractBoundaryPoints regionBoundary
    rw [List.mem_filter]
    simp only [List.any_eq_true]
    constructor
    · rintro ⟨hp, d, hd, hcond⟩
      refine ⟨hp, d, hd, ?_⟩
      by_cases hb : inBoundsZ w h (nbr p d)
      · right
        have hb' : 0 ≤ (p.1 : ℤ) + d.1 ∧ (p.1 : ℤ) + d.1 < (w : ℤ) ∧
            0 ≤ (p.2 : ℤ) + d.2 ∧ (p.2 : ℤ) + d.2 < (h : ℤ) := hb
        rw [if_pos hb'] at hcond
        simpa [nbr] using hcond
      · left; exact hb
    · rintro ⟨hp, d, hd, hcond⟩
      refine ⟨hp, d, hd, ?_⟩
      by_cases hb : (0 ≤ (p.1 : ℤ) + d.1 ∧ (p.1 : ℤ) + d.1 < (w : ℤ) ∧
          0 ≤ (p.2 : ℤ) + d.2 ∧ (p.2 : ℤ) + d.2 < (h : ℤ))
      · rw [if_pos hb]
        rcases hcond with hob | hnm
        · exact absurd hb hob
        · simpa [nbr] using hnm
      · rw [if_neg hb]

/-- Witness for claim C3's theorem: its membership implication applied at
a concrete mask (a single visited pixel in a 2x2 buffer), with the
membership hypothesis discharged by evaluation. -/
theorem claim_C3_witness :
    (⟨(0 : ℚ), (0 : ℚ)⟩ : Point) ∈ ToolDetection.outlinePixels {0} 2 2 :=
  claim_C3.2.1 {0} 2 2 ⟨(0 : ℚ), (0 : ℚ)⟩ (by with_unfolding_all decide)

/-! Claim C5. -/

/-- Claim C5, counterexample: the claim says a candidate at squared
distance less than or equal to 100 is still appended.  On three collinear
points with the nearest candidate at squared distance exactly 100, the
routine stops immediately (the source test is the strict `dist < 100`)
and the ordered outline is just the start point. -/
theorem claim_C5_counterexample :
    ToolDetection.orderOutlinePoints [⟨0, 0⟩, ⟨10, 0⟩, ⟨10, 1⟩] = [⟨0, 0⟩] ∧
      dist2 ⟨10, 0⟩ ⟨0, 0⟩ ≤ 100 ∧
      (⟨10, 0⟩ : Point) ∉ ToolDetection.orderOutlinePoints [⟨0, 0⟩, ⟨10, 0⟩, ⟨10, 1⟩] := by
  have h1 : ToolDetection.orderOutlinePoints [⟨0, 0⟩, ⟨10, 0⟩, ⟨10, 1⟩] = [⟨0, 0⟩] := by
    unfold ToolDetection.orderOutlinePoints
    norm_num [List.range']
    unfold ToolDetection.orderLoop ToolDetection.findNearest
    norm_num [dist2]
  refine ⟨h1, by norm_num [dist2], ?_⟩
  rw [h1]
  intro hmem
  rcases List.mem_singleton.mp hmem with h
  have h10 : (10 : ℚ) = 0 := congrArg Point.x h
  norm_num at h10

/-- Claim C5, amended: for at least 3 boundary points, the ordered
outline starts from the first point found in raster order and every
appended candidate is at squared Euclidean distance strictly less than
100 from its predecessor; the search stops when the nearest remaining
candidate is at squared distance 100 or more. -/
theorem claim_C5 (pts : List Point) (h3 : 3 ≤ pts.length) :
    (ToolDetection.orderOutlinePoints pts).head? = some (pts.getD 0 default) ∧
      List.Chain' (fun a b => dist2 b a < 100)
        (ToolDetection.orderOutlinePoints pts) := by
  unfold ToolDetection.orderOutlinePoints
  rw [if_neg (by omega)]
  exact ⟨rfl, orderLoop_chain pts pts.length (pts.getD 0 default) _⟩

/-- Witness for claim C5's theorem at a concrete 3-point outline. -/
theorem claim_C5_witness :
    (ToolDetection.orderOutlinePoints [⟨0, 0⟩, ⟨1, 0⟩, ⟨2, 0⟩]).head? =
        some (([⟨0, 0⟩, ⟨1, 0⟩, ⟨2, 0⟩] : List Point).getD 0 default) ∧
      List.Chain' (fun a b => dist2 b a < 100)
        (ToolDetection.orderOutlinePoints [⟨0, 0⟩, ⟨1, 0⟩, ⟨2, 0⟩]) :=
  claim_C5 [⟨0, 0⟩, ⟨1, 0⟩, ⟨2, 0⟩] (by decide)

/-! Claim C9. -/

/-- Claim C9: when the floored seed coordinates are out of bounds,
`floodFillTrace` returns the empty point list (the embedding is a total
function, so no error is raised on this path). -/
theorem claim_C9 (img : Img) (start : ℚ × ℚ) (t : ℚ)
    (h : ⌊start.1⌋ < 0 ∨ (img.width : ℤ) ≤ ⌊start.1⌋ ∨ ⌊start.2⌋ < 0 ∨
      (img.height : ℤ) ≤ ⌊start.2⌋) :
    ToolDetection.floodFillTrace img start t = [] := by
  unfold ToolDetection.floodFillTrace
  rw [if_pos h]

/-- Witness for claim C9's theorem: a 2x2 buffer with a seed left of the
image. -/
theorem claim_C9_witness :
    ToolDetection.floodFillTrace (Img.mk 2 2 fun _ => 0) ((-1 : ℚ), (0 : ℚ)) 30 = [] :=
  claim_C9 (Img.mk 2 2 fun _ => 0) ((-1 : ℚ), (0 : ℚ)) 30 (by left; norm_num)

/-! Claim C8: offsetting an axis-aligned square outward by `d` and then
inward by `d` returns the original square.  Working over `ℝ` the
round-trip is exact, which implies the claim's approximate version. -/

namespace Designer

theorem sqrt_half_pos : (0 : ℝ) < Real.sqrt (1 / 2) := Real.sqrt_pos.mpr (by norm_num)

theorem half_div_sqrt_half : ((1 : ℝ) / 2) / Real.sqrt (1 / 2) = Real.sqrt (1 / 2) := by
  have hss : Real.sqrt (1 / 2) * Real.sqrt (1 / 2) = 1 / 2 :=
    Real.mul_self_sqrt (by norm_num)
  rw [div_eq_iff sqrt_half_pos.ne', hss]

theorem offsetPolygon_four (p0 p1 p2 p3 : Point) (d : ℝ) :
    offsetPolygon [p0, p1, p2, p3] d =
      [offsetVertex p3 p0 p1 d, offsetVertex p0 p1 p2 d,
       offsetVertex p1 p2 p3 d, offsetVertex p2 p3 p0 d] := by
  unfold offsetPolygon
  rw [if_neg (by norm_num)]
  norm_num [List.range_succ, List.getD]

theorem offV0 (x y s d : ℝ) (hs : 0 < s) :
    offsetVertex ⟨x + s, y⟩ ⟨x, y⟩ ⟨x, y + s⟩ d =
      ⟨x - d * Real.sqrt (1 / 2), y - d * Real.sqrt (1 / 2)⟩ := by
  simp only [offsetVertex]
  rw [show (x - (x + s)) * (x - (x + s)) + (y - y) * (y - y) = s * s by ring,
    show (x - x) * (x - x) + (y + s - y) * (y + s - y) = s * s by ring,
    Real.sqrt_mul_self hs.le, if_neg (by push_neg; exact ⟨hs.ne', hs.ne'⟩),
    show (-(y - y) / s + -(y + s - y) / s) / 2 = -(1 / 2) by field_simp,
    show ((x - (x + s)) / s + (x - x) / s) / 2 = -(1 / 2) by field_simp,
    show (-(1 / 2) : ℝ) * -(1 / 2) + -(1 / 2) * -(1 / 2) = 1 / 2 by norm_num,
    if_pos sqrt_half_pos,
    show (-(1 / 2) : ℝ) * (d / Real.sqrt (1 / 2)) =
      -(d * ((1 / 2) / Real.sqrt (1 / 2))) by ring,
    half_div_sqrt_half]
  all_goals simp only [Point.mk.injEq]
  all_goals repeat' apply And.intro
  all_goals first
  | rfl
  | ring

theorem offV1 (x y s d : ℝ) (hs : 0 < s) :
    offsetVertex ⟨x, y⟩ ⟨x, y + s⟩ ⟨x + s, y + s⟩ d =
      ⟨x - d * Real.sqrt (1 / 2), y + s + d * Real.sqrt (1 / 2)⟩ := by
  simp only [offsetVertex]
  rw [show (x - x) * (x - x) + (y + s - y) * (y + s - y) = s * s by ring,
    show (x + s - x) * (x + s - x) + (y + s - (y + s)) * (y + s - (y + s)) = s * s by ring,
    Real.sqrt_mul_self hs.le, if_neg (by push_neg; exact ⟨hs.ne', hs.ne'⟩),
    show (-(y + s - y) / s + -(y + s - (y + s)) / s) / 2 = -(1 / 2) by field_simp,
    show ((x - x) / s + (x + s - x) / s) / 2 = 1 / 2 by field_simp,
    show (-(1 / 2) : ℝ) * -(1 / 2) + (1 / 2 : ℝ) * (1 / 2) = 1 / 2 by norm_num,
    if_pos sqrt_half_pos,
    show (-(1 / 2) : ℝ) * (d / Real.sqrt (1 / 2)) =
      -(d * ((1 / 2) / Real.sqrt (1 / 2))) by ring,
    show ((1 / 2) : ℝ) * (d / Real.sqrt (1 / 2)) =
      d * ((1 / 2) / Real.sqrt (1 / 2)) by ring,
    half_div_sqrt_half]
  all_goals simp only [Point.mk.injEq]
  all_goals repeat' apply And.intro
  all_goals first
  | rfl
  | ring

theorem offV2 (x y s d : ℝ) (hs : 0 < s) :
    offsetVertex ⟨x, y + s⟩ ⟨x + s, y + s⟩ ⟨x + s, y⟩ d =
      ⟨x + s + d * Real.sqrt (1 / 2), y + s + d * Real.sqrt (1 / 2)⟩ := by
  simp only [offsetVertex]
  rw [show (x + s - x) * (x + s - x) + (y + s - (y + s)) * (y + s - (y + s)) = s * s by ring,
    show (x + s - (x + s)) * (x + s - (x + s)) + (y - (y + s)) * (y - (y + s)) = s * s by ring,
    Real.sqrt_mul_self hs.le, if_neg (by push_neg; exact ⟨hs.ne', hs.ne'⟩),
    show (-(y + s - (y + s)) / s + -(y - (y + s)) / s) / 2 = 1 / 2 by field_simp,
    show ((x + s - x) / s + (x + s - (x + s)) / s) / 2 = 1 / 2 by field_simp,
    show ((1 / 2) : ℝ) * (1 / 2) + (1 / 2 : ℝ) * (1 / 2) = 1 / 2 by norm_num,
    if_pos sqrt_half_pos,
    show ((1 / 2) : ℝ) * (d / Real.sqrt (1 / 2)) =
      d * ((1 / 2) / Real.sqrt (1 / 2)) by ring,
    half_div_sqrt_half]
  all_goals simp only [Point.mk.injEq]
  all_goals repeat' apply And.intro
  all_goals first
  | rfl
  | ring

theorem offV3 (x y s d : ℝ) (hs : 0 < s) :
    offsetVertex ⟨x + s, y + s⟩ ⟨x + s, y⟩ ⟨x, y⟩ d =
      ⟨x + s + d * Real.sqrt (1 / 2), y - d * Real.sqrt (1 / 2)⟩ := by
  simp only [offsetVertex]
  rw [show (x + s - (x + s)) * (x + s - (x + s)) + (y - (y + s)) * (y - (y + s)) = s * s by ring,
    show (x - (x + s)) * (x - (x + s)) + (y - y) * (y - y) = s * s by ring,
    Real.sqrt_mul_self hs.le, if_neg (by push_neg; exact ⟨hs.ne', hs.ne'⟩),
    show (-(y - (y + s)) / s + -(y - y) / s) / 2 = 1 / 2 by field_simp,
    show ((x + s - (x + s)) / s + (x - (x + s)) / s) / 2 = -(1 / 2) by field_simp,
    show ((1 / 2) : ℝ) * (1 / 2) + (-(1 / 2) : ℝ) * -(1 / 2) = 1 / 2 by norm_num,
    if_pos sqrt_half_pos,
    show ((1 / 2) : ℝ) * (d / Real.sqrt (1 / 2)) =
      d * ((1 / 2) / Real.sqrt (1 / 2)) by ring,
    show (-(1 / 2) : ℝ) * (d / Real.sqrt (1 / 2)) =
      -(d * ((1 / 2) / Real.sqrt (1 / 2))) by ring,
    half_div_sqrt_half]
  all_goals simp only [Point.mk.injEq]
  all_goals repeat' apply And.intro
  all_goals first
  | rfl
  | ring

/-- Offsetting an axis-aligned square with side `s > 0` (in the vertex
order for which positive amounts expand) yields the axis-aligned square
with corner `(x - d√½, y - d√½)` and side `s + 2d√½`, in the same vertex
order. -/
theorem offset_square (x y s d : ℝ) (hs : 0 < s) :
    offsetPolygon [⟨x, y⟩, ⟨x, y + s⟩, ⟨x + s, y + s⟩, ⟨x + s, y⟩] d =
      [⟨x - d * Real.sqrt (1 / 2), y - d * Real.sqrt (1 / 2)⟩,
       ⟨x - d * Real.sqrt (1 / 2),
        y - d * Real.sqrt (1 / 2) + (s + 2 * (d * Real.sqrt (1 / 2)))⟩,
       ⟨x - d * Real.sqrt (1 / 2) + (s + 2 * (d * Real.sqrt (1 / 2))),
        y - d * Real.sqrt (1 / 2) + (s + 2 * (d * Real.sqrt (1 / 2)))⟩,
       ⟨x - d * Real.sqrt (1 / 2) + (s + 2 * (d * Real.sqrt (1 / 2))),
        y - d * Real.sqrt (1 / 2)⟩] := by
  rw [offsetPolygon_four, offV0 x y s d hs, offV1 x y s d hs, offV2 x y s d hs,
    offV3 x y s d hs]
  simp only [List.cons.injEq, Point.mk.injEq]
  all_goals repeat' apply And.intro
  all_goals first
  | rfl
  | ring

end Designer

/-- Claim C8: for every axis-aligned square with side `s > 4d` (vertex
order chosen so that a positive amount expands) and clearance `d > 0`,
offsetting outward by `d` and then inward by `d` returns exactly the
original square's vertices (in exact real arithmetic; a fortiori the
approximate float version). -/
theorem claim_C8 (x y s d : ℝ) (hd : 0 < d) (hs : 4 * d < s) :
    Designer.offsetPolygon
      (Designer.offsetPolygon [⟨x, y⟩, ⟨x, y + s⟩, ⟨x + s, y + s⟩, ⟨x + s, y⟩] d)
      (-d) = [⟨x, y⟩, ⟨x, y + s⟩, ⟨x + s, y + s⟩, ⟨x + s, y⟩] := by
  have hs0 : 0 < s := lt_trans (by positivity) hs
  have hs1 : 0 < s + 2 * (d * Real.sqrt (1 / 2)) := by positivity
  rw [Designer.offset_square x y s d hs0,
    Designer.offset_square (x - d * Real.sqrt (1 / 2)) (y - d * Real.sqrt (1 / 2))
      (s + 2 * (d * Real.sqrt (1 / 2))) (-d) hs1]
  simp only [List.cons.injEq, Designer.Point.mk.injEq]
  all_goals repeat' apply And.intro
  all_goals first
  | rfl
  | ring

/-- Witness for claim C8's theorem: the unit-clearance round trip on the
5x5 square at the origin. -/
theorem claim_C8_witness :
    Designer.offsetPolygon
      (Designer.offsetPolygon
        [⟨0, 0⟩, ⟨0, 0 + 5⟩, ⟨0 + 5, 0 + 5⟩, ⟨0 + 5, 0⟩] 1) (-1) =
      [⟨0, 0⟩, ⟨0, 0 + 5⟩, ⟨0 + 5, 0 + 5⟩, ⟨0 + 5, 0⟩] :=
  claim_C8 0 0 5 1 (by norm_num) (by norm_num)

/-! Claim C1. -/

/-- Counterexample input for claim C1: a 2x2 image whose two bright
(white) pixels sit on a diagonal.  The brightness threshold (the value at
descending index `⌊4 * 0.3⌋ = 1`) is 255, so the bright mask is the two
diagonal pixels, whose largest 4-connected region is the single pixel
`(0,0)`; the 1% area guard (`1 < 0.04` is false) does not reject it. -/
def img2 : Img :=
  Img.mk 2 2 fun i =>
    [255, 255, 255, 255, 0, 0, 0, 0, 0, 0, 0, 0, 255, 255, 255, 255].getD i 0

set_option maxRecDepth 4000 in
/-- Claim C1, counterexample: `detectPaperCV` can return a corner list
with fewer than 4 points (here a single point), contradicting "either
null or exactly 4 corner points". -/
theorem claim_C1_counterexample :
    PaperDetection.detectPaperCV img2 = some [⟨0, 0⟩] ∧
      ([(⟨0, 0⟩ : Point)]).length ≠ 4 := by
  constructor
  · with_unfolding_all decide
  · decide

theorem reorderCorners_length (l : List Point) :
    (PaperDetection.reorderCorners l).length = l.length := by
  unfold PaperDetection.reorderCorners
  split
  · rename_i h4
    simp [h4]
  · rfl

theorem pickLoop_length (pts : List Point) :
    ∀ (fuel : ℕ) (res : List Point) (seen : List (ℤ × ℤ)),
      res.length ≤ 4 →
      (PaperDetection.pickLoop pts fuel res seen).length ≤ 4 := by
  intro fuel
  induction fuel with
  | zero => intro res seen h; exact h
  | succ fuel ih =>
    intro res seen h
    unfold PaperDetection.pickLoop
    split
    · rename_i hcond
      split
      · exact h
      · apply ih
        simp only [List.length_append, List.length_singleton]
        omega
    · exact h

theorem pickBase_length (l : List Point) :
    ∀ (acc : List Point × List (ℤ × ℤ)),
      (l.foldl
        (fun (acc : List Point × List (ℤ × ℤ)) p =>
          if PaperDetection.roundKey p ∈ acc.2 then acc
          else (acc.1 ++ [p], acc.2 ++ [PaperDetection.roundKey p])) acc).1.length ≤
        acc.1.length + l.length := by
  induction l with
  | nil => intro acc; simp
  | cons a l ih =>
    intro acc
    simp only [List.foldl_cons, List.length_cons]
    split
    · calc _ ≤ acc.1.length + l.length := ih acc
        _ ≤ acc.1.length + (l.length + 1) := by omega
    · calc _ ≤ (acc.1 ++ [a]).length + l.length := ih _
        _ ≤ acc.1.length + (l.length + 1) := by simp; omega

theorem pickExtremePoints_length (pts : List Point) :
    (PaperDetection.pickExtremePoints pts).length ≤ 4 := by
  unfold PaperDetection.pickExtremePoints
  apply pickLoop_length
  calc _ ≤ ([] : List Point).length + 4 := by
        have := pickBase_length
          [PaperDetection.minXPt pts, PaperDetection.maxXPt pts,
           PaperDetection.minYPt pts, PaperDetection.maxYPt pts] ([], [])
        simpa using this
    _ = 4 := by simp

theorem approxQuad_shape (hull : List Point) :
    ∃ cs, PaperDetection.approximateQuadrilateral hull =
        PaperDetection.reorderCorners cs ∧
      (PaperDetection.reorderCorners cs).length ≤ 4 := by
  unfold PaperDetection.approximateQuadrilateral
  dsimp only
  split
  · rename_i h4
    exact ⟨hull, rfl, by rw [reorderCorners_length]; omega⟩
  · split
    · rename_i hgt
      refine ⟨_, rfl, ?_⟩
      rw [reorderCorners_length]
      exact pickExtremePoints_length _
    · rename_i hle
      refine ⟨_, rfl, ?_⟩
      rw [reorderCorners_length]
      omega

/-- Claim C1, amended: `detectPaperCV` returns either `none` ("not
found") or the canonical reordering of at most 4 candidate corners; it
never returns more than 4 points, but degenerate inputs (see the
counterexample) can make it return fewer than 4. -/
theorem claim_C1 (img : Img) :
    PaperDetection.detectPaperCV img = none ∨
      ∃ cs, PaperDetection.detectPaperCV img =
          some (PaperDetection.reorderCorners cs) ∧
        (PaperDetection.reorderCorners cs).length ≤ 4 := by
  unfold PaperDetection.detectPaperCV
  dsimp only
  split
  · exact Or.inl rfl
  · right
    obtain ⟨cs, heq, hlen⟩ := approxQuad_shape
      (PaperDetection.convexHull
        ((PaperDetection.extractBoundaryPoints
          (PaperDetection.findLargestConnectedRegion _ img.width img.height) _
          img.width img.height).map fun c => (⟨(c.1 : ℚ), (c.2 : ℚ)⟩ : Point)))
    exact ⟨cs, by rw [heq], hlen⟩

/-! Claim C2: lemmas about the Graham-scan implementations (pivot
selection and the pop discipline) and the spec-side hull definition. -/

/-- Strictly counter-clockwise turns at every consecutive triple. -/
def StrictCCW : List Point → Prop
  | a :: b :: c :: rest => 0 < cross a b c ∧ StrictCCW (b :: c :: rest)
  | _ => True

theorem strictCCW_nil : StrictCCW [] := trivial
theorem strictCCW_single (a : Point) : StrictCCW [a] := trivial
theorem strictCCW_pair (a b : Point) : StrictCCW [a, b] := trivial

theorem strictCCW_append_left : ∀ (l t : List Point), StrictCCW (l ++ t) → StrictCCW l := by
  intro l
  induction l with
  | nil => intro t _; trivial
  | cons a l ih =>
    intro t h
    match l, t with
    | [], _ => trivial
    | [b], _ => trivial
    | b :: c :: l', t =>
      obtain ⟨h1, h2⟩ := h
      exact ⟨h1, ih t h2⟩

theorem strictCCW_take (l : List Point) (n : ℕ) (h : StrictCCW l) :
    StrictCCW (l.take n) := by
  apply strictCCW_append_left _ (l.drop n)
  rw [List.take_append_drop]
  exact h

theorem getLast?_cons_ne {A : Type} (a : A) {l : List A} (h : l ≠ []) :
    (a :: l).getLast? = l.getLast? := by
  cases l with
  | nil => exact absurd rfl h
  | cons b t => exact List.getLast?_cons_cons

theorem strictCCW_snoc : ∀ (l : List Point) (p : Point), StrictCCW l →
    (∀ a b, l.getLast? = some b → l.dropLast.getLast? = some a → 0 < cross a b p) →
    StrictCCW (l ++ [p]) := by
  intro l
  induction l with
  | nil => intro p _ _; trivial
  | cons a l ih =>
    intro p h hlast
    match l with
    | [] => trivial
    | [b] =>
      refine ⟨?_, trivial⟩
      exact hlast a b rfl rfl
    | b :: c :: l' =>
      obtain ⟨h1, h2⟩ := h
      refine ⟨h1, ?_⟩
      apply ih p h2
      intro a' b' hb' ha'
      apply hlast a' b'
      · rw [List.getLast?_cons_cons]
        exact hb'
      · have hne : (b :: c :: l').dropLast ≠ [] := by simp
        rw [show (a :: b :: c :: l').dropLast = a :: (b :: c :: l').dropLast from rfl,
          getLast?_cons_ne a hne]
        exact ha'

-- hullPop lemmas
theorem hullPop_ne_nil (p : Point) : ∀ st : List Point, st ≠ [] → hullPop p st ≠ [] := by
  intro st
  induction st with
  | nil => intro h; exact absurd rfl h
  | cons a st ih =>
    intro _
    match st with
    | [] => simp [hullPop]
    | b :: rest =>
      unfold hullPop
      split
      · exact ih (by simp)
      · simp

theorem hullPop_drop (p : Point) : ∀ st : List Point, ∃ k, hullPop p st = st.drop k := by
  intro st
  induction st with
  | nil => exact ⟨0, rfl⟩
  | cons a st ih =>
    match st with
    | [] => exact ⟨0, rfl⟩
    | b :: rest =>
      unfold hullPop
      split
      · obtain ⟨k, hk⟩ := ih
        exact ⟨k + 1, hk⟩
      · exact ⟨0, rfl⟩

theorem hullPop_stop (p : Point) : ∀ st : List Point,
    (hullPop p st).length ≤ 1 ∨
      0 < cross ((hullPop p st).getD 1 default) ((hullPop p st).getD 0 default) p := by
  intro st
  induction st with
  | nil => left; simp [hullPop]
  | cons a st ih =>
    match st with
    | [] => left; simp [hullPop]
    | b :: rest =>
      unfold hullPop
      split
      · exact ih
      · rename_i hcr
        right
        push_neg at hcr
        simpa using hcr

theorem hullPop_getLast? (p : Point) : ∀ st : List Point, st ≠ [] →
    (hullPop p st).getLast? = st.getLast? := by
  intro st
  induction st with
  | nil => intro h; exact absurd rfl h
  | cons a st ih =>
    intro _
    match st with
    | [] => simp [hullPop]
    | b :: rest =>
      unfold hullPop
      split
      · rw [ih (by simp)]
        exact (getLast?_cons_ne a (by simp)).symm
      · rfl

theorem scan_inv (sorted : List Point) : ∀ stack : List Point, stack ≠ [] →
    StrictCCW stack.reverse →
    (sorted.foldl (fun st p => p :: hullPop p st) stack) ≠ [] ∧
      StrictCCW (sorted.foldl (fun st p => p :: hullPop p st) stack).reverse ∧
      (sorted.foldl (fun st p => p :: hullPop p st) stack).getLast? = stack.getLast? := by
  induction sorted with
  | nil => intro stack hne hccw; exact ⟨hne, hccw, rfl⟩
  | cons p sorted ih =>
    intro stack hne hccw
    simp only [List.foldl_cons]
    have h1ne : hullPop p stack ≠ [] := hullPop_ne_nil p stack hne
    have h1ccw : StrictCCW (hullPop p stack).reverse := by
      obtain ⟨k, hk⟩ := hullPop_drop p stack
      rw [hk, List.reverse_drop]
      exact strictCCW_take _ _ hccw
    have h2ccw : StrictCCW (p :: hullPop p stack).reverse := by
      rw [List.reverse_cons]
      apply strictCCW_snoc _ _ h1ccw
      intro a b hb ha
      rw [List.getLast?_reverse] at hb
      rw [List.dropLast_reverse, List.getLast?_reverse] at ha
      rcases hullPop_stop p stack with hlen | hcr
      · exfalso
        match hmm : hullPop p stack with
        | [] => rw [hmm] at hb; simp at hb
        | [x] => rw [hmm] at ha; simp at ha
        | x :: y :: rest => rw [hmm] at hlen; simp at hlen
      · match hmm : hullPop p stack with
        | [] => rw [hmm] at hb; simp at hb
        | [x] => rw [hmm] at ha; simp at ha
        | x :: y :: rest =>
          rw [hmm] at hb ha hcr
          simp only [List.head?_cons, Option.some.injEq] at hb
          simp only [List.tail_cons, List.head?_cons, Option.some.injEq] at ha
          subst hb
          subst ha
          simpa using hcr
    have h2last : (p :: hullPop p stack).getLast? = stack.getLast? := by
      rw [getLast?_cons_ne p h1ne]
      exact hullPop_getLast? p stack hne
    obtain ⟨r1, r2, r3⟩ := ih (p :: hullPop p stack) (by simp) h2ccw
    exact ⟨r1, r2, by rw [r3, h2last]⟩

/-- Domination order of the pivot fold. -/
def domPt (a q : Point) : Prop := q.y < a.y ∨ (q.y = a.y ∧ a.x ≤ q.x)

theorem domPt_refl (a : Point) : domPt a a := Or.inr ⟨rfl, le_refl _⟩

theorem pivotFold_aux :
    ∀ (rest : List Point) (acc : Point),
      ((rest.foldl (fun low p =>
          if low.y < p.y ∨ (p.y = low.y ∧ p.x < low.x) then p else low) acc) ∈ rest ∨
        (rest.foldl (fun low p =>
          if low.y < p.y ∨ (p.y = low.y ∧ p.x < low.x) then p else low) acc) = acc) ∧
      (∀ q ∈ rest, domPt (rest.foldl (fun low p =>
          if low.y < p.y ∨ (p.y = low.y ∧ p.x < low.x) then p else low) acc) q) ∧
      domPt (rest.foldl (fun low p =>
          if low.y < p.y ∨ (p.y = low.y ∧ p.x < low.x) then p else low) acc) acc := by
  intro rest
  induction rest with
  | nil => intro acc; exact ⟨Or.inr rfl, by simp, domPt_refl acc⟩
  | cons p rest ih =>
    intro acc
    simp only [List.foldl_cons]
    have step : domPt (if acc.y < p.y ∨ (p.y = acc.y ∧ p.x < acc.x) then p else acc) p ∧
        domPt (if acc.y < p.y ∨ (p.y = acc.y ∧ p.x < acc.x) then p else acc) acc := by
      split
      · rename_i hbet
        refine ⟨domPt_refl p, ?_⟩
        rcases hbet with h | ⟨h1, h2⟩
        · exact Or.inl h
        · exact Or.inr ⟨h1.symm, le_of_lt h2⟩
      · rename_i hnb
        push_neg at hnb
        refine ⟨?_, domPt_refl acc⟩
        rcases lt_trichotomy p.y acc.y with h | h | h
        · exact Or.inl h
        · exact Or.inr ⟨h, hnb.2 h⟩
        · exact absurd h (by simpa using hnb.1)
    have trans : ∀ {a b c : Point}, domPt a b → domPt b c → domPt a c := by
      intro a b c h1 h2
      rcases h1 with h1 | ⟨h1e, h1x⟩
      · rcases h2 with h2 | ⟨h2e, h2x⟩
        · exact Or.inl (lt_trans h2 h1)
        · exact Or.inl (h2e ▸ h1)
      · rcases h2 with h2 | ⟨h2e, h2x⟩
        · exact Or.inl (h1e ▸ h2)
        · exact Or.inr ⟨h2e.trans h1e, le_trans h1x h2x⟩
    obtain ⟨ihm, ihall, ihacc⟩ := ih (if acc.y < p.y ∨ (p.y = acc.y ∧ p.x < acc.x) then p else acc)
    refine ⟨?_, ?_, ?_⟩
    · rcases ihm with h | h
      · left; exact List.mem_cons_of_mem p h
      · rw [h]
        split
        · left; exact List.mem_cons_self p rest
        · right; rfl
    · intro q hq
      rcases List.mem_cons.mp hq with h | h
      · rw [h]
        exact trans ihacc step.1
      · exact ihall q h
    · exact trans ihacc step.2

theorem pivotFold_max (l : List Point) (hne : l ≠ []) :
    pivotFold l ∈ l ∧ ∀ q ∈ l, domPt (pivotFold l) q := by
  unfold pivotFold
  obtain ⟨hm, hall, hacc⟩ := pivotFold_aux l (l.getD 0 default)
  constructor
  · rcases hm with h | h
    · exact h
    · rw [h, List.getD_eq_getElem _ _ (by cases l with
        | nil => exact absurd rfl hne
        | cons a t => simp)]
      exact List.getElem_mem _
  · exact hall

theorem sampleEvery_ne_nil (cap : ℕ) (l : List Point) (hne : l ≠ []) :
    sampleEvery cap l ≠ [] := by
  unfold sampleEvery
  split
  · match l with
    | [] => exact absurd rfl hne
    | a :: t =>
      rw [List.enum_cons]
      rw [List.filter_cons_of_pos (by simp)]
      simp
  · exact hne

theorem hullScan_spec (sorted : List Point) (pivot : Point) :
    (hullScan sorted pivot).head? = some pivot ∧ StrictCCW (hullScan sorted pivot) := by
  unfold hullScan
  obtain ⟨r1, r2, r3⟩ := scan_inv sorted [pivot] (by simp) trivial
  constructor
  · rw [List.head?_reverse, r3]; rfl
  · exact r2

/-- Spec-following convex hull for claim C2's original wording: pivot with
minimum y (ties by minimum x), remaining points sorted by polar angle with
distance tie-break, cross <= 0 pops, short lists unchanged. -/
def convexHullSpecC2 (pts : List Point) : List Point :=
  if pts.length < 3 then pts
  else
    let pivot := pts.foldl
      (fun low p => if p.y < low.y ∨ (p.y = low.y ∧ p.x < low.x) then p else low)
      (pts.getD 0 default)
    hullScan ((pts.erase pivot).insertionSort (PaperDetection.angleLeP pivot)) pivot

/-- Claim C2, counterexample: the claim says the pivot is the point with
minimum y (ties by minimum x).  The source keeps the point with *maximum*
y (the visually lowest point of the y-down screen coordinate system): on
the triangle (0,0),(1,0),(0,1) the code's hull starts at (0,1) while the
spec-following hull starts at (0,0), and the two results differ. -/
theorem claim_C2_counterexample :
    Segmentation.convexHull [⟨0, 0⟩, ⟨1, 0⟩, ⟨0, 1⟩] = [⟨0, 1⟩, ⟨0, 0⟩, ⟨1, 0⟩] ∧
      convexHullSpecC2 [⟨0, 0⟩, ⟨1, 0⟩, ⟨0, 1⟩] = [⟨0, 0⟩, ⟨1, 0⟩, ⟨0, 1⟩] ∧
      Segmentation.convexHull [⟨0, 0⟩, ⟨1, 0⟩, ⟨0, 1⟩] ≠
        convexHullSpecC2 [⟨0, 0⟩, ⟨1, 0⟩, ⟨0, 1⟩] := by
  refine ⟨?_, ?_, ?_⟩
  · with_unfolding_all decide
  · with_unfolding_all decide
  · with_unfolding_all decide

/-- Claim C2, amended: point sets with fewer than 3 points are returned
unchanged by both convex-hull routines; for at least 3 points, the first
hull vertex of either routine is its pivot, a point of the (possibly
down-sampled) input with maximum y, ties broken by minimum x, and the
`cross ≤ 0` pop discipline leaves every three consecutive hull points in
a strictly counter-clockwise turn (`0 < cross`). -/
theorem claim_C2 :
    (∀ pts : List Point, pts.length < 3 →
      Segmentation.convexHull pts = pts ∧ PaperDetection.convexHull pts = pts) ∧
    (∀ pts : List Point, 3 ≤ pts.length →
      ∃ piv, (Segmentation.convexHull pts).head? = some piv ∧
        piv ∈ sampleEvery 1000 pts ∧
        (∀ q ∈ sampleEvery 1000 pts, q.y < piv.y ∨ (q.y = piv.y ∧ piv.x ≤ q.x)) ∧
        StrictCCW (Segmentation.convexHull pts)) ∧
    (∀ pts : List Point, 3 ≤ pts.length →
      ∃ piv, (PaperDetection.convexHull pts).head? = some piv ∧
        piv ∈ sampleEvery 2000 pts ∧
        (∀ q ∈ sampleEvery 2000 pts, q.y < piv.y ∨ (q.y = piv.y ∧ piv.x ≤ q.x)) ∧
        StrictCCW (PaperDetection.convexHull pts)) := by
  refine ⟨?_, ?_, ?_⟩
  · intro pts h3
    constructor
    · unfold Segmentation.convexHull
      rw [if_pos h3]
    · unfold PaperDetection.convexHull
      rw [if_pos h3]
  · intro pts h3
    have hne : pts ≠ [] := by
      intro h
      rw [h] at h3
      simp at h3
    refine ⟨pivotFold (sampleEvery 1000 pts), ?_, ?_, ?_, ?_⟩
    · unfold Segmentation.convexHull
      rw [if_neg (by omega)]
      exact (hullScan_spec _ _).1
    · exact (pivotFold_max _ (sampleEvery_ne_nil _ _ hne)).1
    · exact fun q hq => (pivotFold_max _ (sampleEvery_ne_nil _ _ hne)).2 q hq
    · unfold Segmentation.convexHull
      rw [if_neg (by omega)]
      exact (hullScan_spec _ _).2
  · intro pts h3
    have hne : pts ≠ [] := by
      intro h
      rw [h] at h3
      simp at h3
    refine ⟨pivotFold (sampleEvery 2000 pts), ?_, ?_, ?_, ?_⟩
    · unfold PaperDetection.convexHull
      rw [if_neg (by omega)]
      exact (hullScan_spec _ _).1
    · exact (pivotFold_max _ (sampleEvery_ne_nil _ _ hne)).1
    · exact fun q hq => (pivotFold_max _ (sampleEvery_ne_nil _ _ hne)).2 q hq
    · unfold PaperDetection.convexHull
      rw [if_neg (by omega)]
      exact (hullScan_spec _ _).2

/-- Witness for claim C2's theorem: its pivot clause applied to a
concrete triangle. -/
theorem claim_C2_witness :
    ∃ piv, (Segmentation.convexHull [⟨0, 0⟩, ⟨1, 0⟩, ⟨0, 1⟩]).head? = some piv ∧
      piv ∈ sampleEvery 1000 [⟨0, 0⟩, ⟨1, 0⟩, ⟨0, 1⟩] ∧
      (∀ q ∈ sampleEvery 1000 [⟨0, 0⟩, ⟨1, 0⟩, ⟨0, 1⟩],
        q.y < piv.y ∨ (q.y = piv.y ∧ piv.x ≤ q.x)) ∧
      StrictCCW (Segmentation.convexHull [⟨0, 0⟩, ⟨1, 0⟩, ⟨0, 1⟩]) :=
  claim_C2.2.1 [⟨0, 0⟩, ⟨1, 0⟩, ⟨0, 1⟩] (by decide)

/-! Claim C10: invariants of the marching-squares walk. -/

theorem allPixels_mem (w h x y : ℕ) :
    (x, y) ∈ PaperDetection.allPixels w h ↔ x < w ∧ y < h := by
  unfold PaperDetection.allPixels
  rw [List.mem_flatMap]
  constructor
  · rintro ⟨y', hy', hmem⟩
    rw [List.mem_map] at hmem
    obtain ⟨x', hx', heq⟩ := hmem
    obtain ⟨h1, h2⟩ := Prod.mk.injEq .. ▸ heq
    subst h1; subst h2
    exact ⟨List.mem_range.mp hx', List.mem_range.mp hy'⟩
  · rintro ⟨hx, hy⟩
    exact ⟨y, List.mem_range.mpr hy, List.mem_map.mpr ⟨x, List.mem_range.mpr hx, rfl⟩⟩

theorem msFindMove_spec (mask : ℕ → Bool) (w h : ℕ) (st : Segmentation.MSState)
    (nx ny nd : ℕ) (hmv : Segmentation.msFindMove mask w h st = some (nx, ny, nd)) :
    nx < w ∧ ny < h ∧ mask (ny * w + nx) = true := by
  unfold Segmentation.msFindMove at hmv
  obtain ⟨d, hd, hsome⟩ := List.exists_of_findSome?_eq_some hmv
  dsimp only at hsome
  split at hsome
  · rename_i hb
    split at hsome
    · rename_i hcond
      obtain ⟨h1, h2⟩ := Prod.mk.injEq .. ▸ (Option.some.injEq .. ▸ hsome)
      obtain ⟨h2a, h2b⟩ := Prod.mk.injEq .. ▸ h2
      subst h1
      subst h2a
      subst h2b
      refine ⟨by omega, by omega, hcond.1⟩
    · exact absurd hsome (by simp)
  · exact absurd hsome (by simp)

theorem msLoop_inv (mask : ℕ → Bool) (w h sx sy : ℕ) :
    ∀ (fuel : ℕ) (st : Segmentation.MSState),
      (∀ c ∈ st.contour, c.1 < w ∧ c.2 < h ∧ mask (c.2 * w + c.1) = true) →
      st.contour.Nodup →
      st.x < w → st.y < h → mask (st.y * w + st.x) = true →
      (∀ c ∈ Segmentation.msLoop mask w h sx sy fuel st,
        c.1 < w ∧ c.2 < h ∧ mask (c.2 * w + c.1) = true) ∧
        (Segmentation.msLoop mask w h sx sy fuel st).Nodup := by
  intro fuel
  induction fuel with
  | zero =>
    intro st hall hnd _ _ _
    exact ⟨hall, hnd⟩
  | succ fuel ih =>
    intro st hall hnd hx hy hm
    unfold Segmentation.msLoop
    dsimp only
    set st1 := if (st.x, st.y) ∈ st.contour then st
               else { st with contour := st.contour ++ [(st.x, st.y)] } with hst1
    have h1all : ∀ c ∈ st1.contour, c.1 < w ∧ c.2 < h ∧ mask (c.2 * w + c.1) = true := by
      rw [hst1]
      split
      · exact hall
      · intro c hc
        rcases List.mem_append.mp hc with hcl | hcr
        · exact hall c hcl
        · rw [List.mem_singleton.mp hcr]
          exact ⟨hx, hy, hm⟩
    have h1nd : st1.contour.Nodup := by
      rw [hst1]
      split
      · exact hnd
      · rename_i hnotin
        rw [← List.concat_eq_append]
        exact List.Nodup.concat hnotin hnd
    have h1x : st1.x = st.x := by rw [hst1]; split <;> rfl
    have h1y : st1.y = st.y := by rw [hst1]; split <;> rfl
    rcases hmv : Segmentation.msFindMove mask w h st1 with _ | ⟨nx, ny, nd⟩
    · exact ⟨h1all, h1nd⟩
    · obtain ⟨hnx, hny, hnm⟩ := msFindMove_spec mask w h st1 nx ny nd hmv
      show (∀ c ∈ (if (nx = sx ∧ ny = sy) ∨ ¬st1.contour.length < w * h then
          st1.contour
          else Segmentation.msLoop mask w h sx sy fuel
            { x := nx, y := ny, dir := nd, contour := st1.contour }),
          c.1 < w ∧ c.2 < h ∧ mask (c.2 * w + c.1) = true) ∧
        (if (nx = sx ∧ ny = sy) ∨ ¬st1.contour.length < w * h then
          st1.contour
          else Segmentation.msLoop mask w h sx sy fuel
            { x := nx, y := ny, dir := nd, contour := st1.contour }).Nodup
      by_cases hstop : (nx = sx ∧ ny = sy) ∨ ¬st1.contour.length < w * h
      · rw [if_pos hstop]
        exact ⟨h1all, h1nd⟩
      · rw [if_neg hstop]
        exact ih { x := nx, y := ny, dir := nd, contour := st1.contour }
          h1all h1nd hnx hny hnm

/-- Claim C10: every point of the contour returned by `marchingSquares`
is an in-bounds foreground pixel of the mask, and no point appears twice.
The invariant is proved for every fuel budget of the walk (`msLoop_inv`),
hence in particular for the budget `marchingSquares` uses. -/
theorem claim_C10 (mask : ℕ → Bool) (w h : ℕ) :
    (∀ p ∈ Segmentation.marchingSquares mask w h,
      ∃ x y : ℕ, p = ⟨(x : ℚ), (y : ℚ)⟩ ∧ x < w ∧ y < h ∧ mask (y * w + x) = true) ∧
      (Segmentation.marchingSquares mask w h).Nodup := by
  unfold Segmentation.marchingSquares
  rcases hst : Segmentation.findStart mask w h with _ | ⟨sx, sy⟩
  · exact ⟨by simp, List.nodup_nil⟩
  · have hst' : (PaperDetection.allPixels w h).find?
        (fun c => mask (c.2 * w + c.1)) = some (sx, sy) := by
      unfold Segmentation.findStart at hst
      exact hst
    have hmask : mask (sy * w + sx) = true := by
      simpa using List.find?_some hst'
    have hmem : (sx, sy) ∈ PaperDetection.allPixels w h :=
      List.mem_of_find?_eq_some hst'
    obtain ⟨hsx, hsy⟩ := (allPixels_mem w h sx sy).mp hmem
    obtain ⟨hall, hnd⟩ := msLoop_inv mask w h sx sy (w * h + 1)
      ⟨sx, sy, 0, []⟩ (by simp) List.nodup_nil hsx hsy hmask
    constructor
    · intro p hp
      rw [List.mem_map] at hp
      obtain ⟨c, hc, heq⟩ := hp
      obtain ⟨h1, h2, h3⟩ := hall c hc
      exact ⟨c.1, c.2, heq.symm, h1, h2, h3⟩
    · apply List.Nodup.map _ hnd
      intro a b hab
      obtain ⟨hx, hy⟩ := Point.mk.injEq .. ▸ hab
      have hx' : a.1 = b.1 := by exact_mod_cast hx
      have hy' : a.2 = b.2 := by exact_mod_cast hy
      exact Prod.ext hx' hy'

/-! Claim C7: canonical corner ordering. -/

/-- Claim C7, counterexample: `reorderCorners` is not idempotent on every
4-point list it has produced.  On the degenerate quadrilateral
(-1,-1),(-2,-2),(4,0),(-1,3), two corners lie on the same ray from the
centroid (equal `atan2` angles): the stable angle sort then depends on the
input order, and reordering the routine's own output changes it again. -/
theorem claim_C7_counterexample :
    PaperDetection.reorderCorners
        (PaperDetection.reorderCorners [⟨-1, -1⟩, ⟨-2, -2⟩, ⟨4, 0⟩, ⟨-1, 3⟩]) ≠
      PaperDetection.reorderCorners [⟨-1, -1⟩, ⟨-2, -2⟩, ⟨4, 0⟩, ⟨-1, 3⟩] := by
  with_unfolding_all decide

/-- Angle key of a point around a fixed centroid (the sort key of
`reorderCorners`). -/
def keyC (cx cy : ℚ) (p : Point) : ℚ := pseudoAngle (p.x - cx) (p.y - cy)

instance (cx cy : ℚ) : IsTotal Point (PaperDetection.angleLeC cx cy) :=
  ⟨fun a b => le_total (keyC cx cy a) (keyC cx cy b)⟩

instance (cx cy : ℚ) : IsTrans Point (PaperDetection.angleLeC cx cy) :=
  ⟨fun _ _ _ hab hbc => le_trans hab hbc⟩

theorem sortAngle_unique (cx cy : ℚ) (l₁ l₂ : List Point) (hp : l₁.Perm l₂)
    (hs₁ : l₁.Sorted (PaperDetection.angleLeC cx cy))
    (hs₂ : l₂.Sorted (PaperDetection.angleLeC cx cy))
    (hd : (l₁.map (keyC cx cy)).Pairwise (fun a b => a ≠ b)) : l₁ = l₂ := by
  haveI : IsAntisymm Point (fun a b => keyC cx cy a < keyC cx cy b) :=
    ⟨fun a b h1 h2 => absurd h2 (lt_asymm h1)⟩
  have hd₂ : (l₂.map (keyC cx cy)).Pairwise (fun a b => a ≠ b) :=
    ((hp.map (keyC cx cy)).pairwise_iff (fun h => Ne.symm h)).mp hd
  rw [List.pairwise_map] at hd hd₂
  have hs₁' : l₁.Sorted (fun a b => keyC cx cy a < keyC cx cy b) :=
    (hs₁.and hd).imp fun h => lt_of_le_of_ne h.1 h.2
  have hs₂' : l₂.Sorted (fun a b => keyC cx cy a < keyC cx cy b) :=
    (hs₂.and hd₂).imp fun h => lt_of_le_of_ne h.1 h.2
  exact List.eq_of_perm_of_sorted hp hs₁' hs₂'

theorem sumX_eq : ∀ (l : List Point) (a : ℚ),
    l.foldl (fun s p => s + p.x) a = a + (l.map Point.x).sum := by
  intro l
  induction l with
  | nil => intro a; simp
  | cons p l ih =>
    intro a
    simp only [List.foldl_cons, List.map_cons, List.sum_cons]
    rw [ih]
    ring

theorem sumX_perm {l l' : List Point} (hp : l.Perm l') :
    PaperDetection.sumX l = PaperDetection.sumX l' := by
  unfold PaperDetection.sumX
  rw [sumX_eq, sumX_eq, (hp.map Point.x).sum_eq]

theorem sumY_eq : ∀ (l : List Point) (a : ℚ),
    l.foldl (fun s p => s + p.y) a = a + (l.map Point.y).sum := by
  intro l
  induction l with
  | nil => intro a; simp
  | cons p l ih =>
    intro a
    simp only [List.foldl_cons, List.map_cons, List.sum_cons]
    rw [ih]
    ring

theorem sumY_perm {l l' : List Point} (hp : l.Perm l') :
    PaperDetection.sumY l = PaperDetection.sumY l' := by
  unfold PaperDetection.sumY
  rw [sumY_eq, sumY_eq, (hp.map Point.y).sum_eq]

theorem foldl_sel_fst {α : Type} (g : ℕ × α → ℕ → ℕ × α)
    (hg : ∀ acc i, (g acc i).1 = acc.1 ∨ (g acc i).1 = i) :
    ∀ (l : List ℕ) (acc : ℕ × α),
      (l.foldl g acc).1 = acc.1 ∨ (l.foldl g acc).1 ∈ l := by
  intro l
  induction l with
  | nil => simp
  | cons a l ih =>
    intro acc
    simp only [List.foldl_cons]
    rcases ih (g acc a) with h | h
    · rcases hg acc a with h2 | h2
      · left; rw [h, h2]
      · right; rw [h, h2]; exact List.mem_cons_self a l
    · right; exact List.mem_cons_of_mem a h

theorem tlIdx_lt (s : List Point) : PaperDetection.tlIdx s < 4 := by
  unfold PaperDetection.tlIdx
  have h := foldl_sel_fst
    (fun (acc : ℕ × ℚ) i =>
      if (s.getD i default).x + (s.getD i default).y < acc.2 then
        (i, (s.getD i default).x + (s.getD i default).y)
      else acc)
    (by
      intro acc i
      dsimp only
      split
      · right; rfl
      · left; rfl)
    (List.range' 1 3) (0, (s.getD 0 default).x + (s.getD 0 default).y)
  rcases h with h | h
  · rw [h]; norm_num
  · rw [List.mem_range'_1] at h
    omega

theorem reorder_eq (l : List Point) (h4 : l.length = 4) :
    PaperDetection.reorderCorners l = (List.range 4).map (fun i =>
      (l.insertionSort (PaperDetection.angleLeC
          (PaperDetection.sumX l / 4) (PaperDetection.sumY l / 4))).getD
        ((PaperDetection.tlIdx (l.insertionSort (PaperDetection.angleLeC
          (PaperDetection.sumX l / 4) (PaperDetection.sumY l / 4))) + i) % 4)
        default) := by
  unfold PaperDetection.reorderCorners
  rw [if_pos h4]

theorem rot_of_four (s : List Point) (h4 : s.length = 4) (t : ℕ) (ht : t < 4) :
    ((List.range 4).map fun i => s.getD ((t + i) % 4) default).Perm s := by
  match s, h4 with
  | [a, b, c, d], _ =>
    interval_cases t
    · show List.Perm [a, b, c, d] [a, b, c, d]
      exact List.Perm.refl _
    · show List.Perm [b, c, d, a] [a, b, c, d]
      exact @List.perm_append_comm _ [b, c, d] [a]
    · show List.Perm [c, d, a, b] [a, b, c, d]
      exact @List.perm_append_comm _ [c, d] [a, b]
    · show List.Perm [d, a, b, c] [a, b, c, d]
      exact @List.perm_append_comm _ [d] [a, b, c]

theorem reorder_perm (l : List Point) (h4 : l.length = 4) :
    (PaperDetection.reorderCorners l).Perm l := by
  rw [reorder_eq l h4]
  have hS : (l.insertionSort (PaperDetection.angleLeC
      (PaperDetection.sumX l / 4) (PaperDetection.sumY l / 4))).Perm l :=
    List.perm_insertionSort _ l
  have hS4 : (l.insertionSort (PaperDetection.angleLeC
      (PaperDetection.sumX l / 4) (PaperDetection.sumY l / 4))).length = 4 := by
    rw [hS.length_eq, h4]
  exact (rot_of_four _ hS4 _ (tlIdx_lt _)).trans hS

theorem reorder_length4 (l : List Point) (h4 : l.length = 4) :
    (PaperDetection.reorderCorners l).length = 4 := by
  rw [(reorder_perm l h4).length_eq, h4]

theorem reorder_congr (l l' : List Point) (hp : l.Perm l') (h4 : l'.length = 4)
    (hd : (l'.map (keyC (PaperDetection.sumX l' / 4)
      (PaperDetection.sumY l' / 4))).Pairwise (fun a b => a ≠ b)) :
    PaperDetection.reorderCorners l = PaperDetection.reorderCorners l' := by
  have h4l : l.length = 4 := by rw [hp.length_eq, h4]
  rw [reorder_eq l h4l, reorder_eq l' h4]
  rw [sumX_perm hp, sumY_perm hp]
  have hsort : l.insertionSort (PaperDetection.angleLeC
      (PaperDetection.sumX l' / 4) (PaperDetection.sumY l' / 4)) =
      l'.insertionSort (PaperDetection.angleLeC
      (PaperDetection.sumX l' / 4) (PaperDetection.sumY l' / 4)) := by
    apply sortAngle_unique (PaperDetection.sumX l' / 4) (PaperDetection.sumY l' / 4)
    · exact ((List.perm_insertionSort _ l).trans hp).trans
        (List.perm_insertionSort _ l').symm
    · exact List.sorted_insertionSort _ l
    · exact List.sorted_insertionSort _ l'
    · exact ((((List.perm_insertionSort _ l).trans hp).map
        (keyC (PaperDetection.sumX l' / 4) (PaperDetection.sumY l' / 4))).pairwise_iff
        (fun h => Ne.symm h)).mpr hd
  rw [hsort]

theorem reorder_idem (l : List Point) (h4 : l.length = 4)
    (hd : (l.map (keyC (PaperDetection.sumX l / 4)
      (PaperDetection.sumY l / 4))).Pairwise (fun a b => a ≠ b)) :
    PaperDetection.reorderCorners (PaperDetection.reorderCorners l) =
      PaperDetection.reorderCorners l := by
  have hRl : (PaperDetection.reorderCorners l).Perm l := reorder_perm l h4
  rw [reorder_congr (PaperDetection.reorderCorners l) l hRl h4 hd]

def rectC7 : List Point := [⟨0, 0⟩, ⟨100, 0⟩, ⟨100, 50⟩, ⟨0, 50⟩]

/-- Claim C7, amended: lists whose length is not 4 are returned
unchanged; on 4-point lists whose corners have pairwise distinct polar
angles around their centroid, `reorderCorners` is idempotent (for two
corners on one ray from the centroid it need not be, see the
counterexample); and every input ordering of the non-rotated rectangle
(0,0),(100,0),(100,50),(0,50) is reordered to exactly that canonical
list. -/
theorem claim_C7 :
    (∀ l : List Point, l.length ≠ 4 → PaperDetection.reorderCorners l = l) ∧
    (∀ l : List Point, l.length = 4 →
      (l.map (keyC (PaperDetection.sumX l / 4)
        (PaperDetection.sumY l / 4))).Pairwise (fun a b => a ≠ b) →
      PaperDetection.reorderCorners (PaperDetection.reorderCorners l) =
        PaperDetection.reorderCorners l) ∧
    (∀ l : List Point, l.Perm rectC7 → PaperDetection.reorderCorners l = rectC7) := by
  refine ⟨?_, ?_, ?_⟩
  · intro l h4
    unfold PaperDetection.reorderCorners
    rw [if_neg h4]
  · intro l h4 hd
    exact reorder_idem l h4 hd
  · intro l hp
    rw [reorder_congr l rectC7 hp (by decide) (by with_unfolding_all decide)]
    with_unfolding_all decide

theorem claim_C7_witness :
    PaperDetection.reorderCorners (PaperDetection.reorderCorners rectC7) =
      PaperDetection.reorderCorners rectC7 :=
  claim_C7.2.1 rectC7 (by decide) (by with_unfolding_all decide)

/-! ### Claim C6: idempotence of Douglas-Peucker simplification -/

/-- One step of the max-deviation fold of `douglasPeucker` (`maxDist` /
`maxIdx` update), abstracted over the per-index deviation `f`. -/
def dpStep (f : ℕ → ℚ) (a : ℚ × ℕ) (i : ℕ) : ℚ × ℕ :=
  if a.1 < f i then (f i, i) else a

/-- Squared deviation of the `i`-th point of `pts` from the chord between
the first and last points (the quantity maximised by `dpMaxSel`). -/
def fD (pts : List Point) (i : ℕ) : ℚ :=
  perpDistSq (pts.getD i default) (pts.getD 0 default)
    (pts.getD (pts.length - 1) default)

theorem dp_base (pts : List Point) (eps : ℚ) (h2 : pts.length ≤ 2) :
    douglasPeucker pts eps = pts := by
  conv_lhs => rw [douglasPeucker]
  rw [dif_pos h2]

theorem dp_two (pts : List Point) (eps : ℚ) (h2 : ¬ pts.length ≤ 2)
    (hrec : ¬ (gtTol eps (dpMaxSel pts).1 ∧ 0 < (dpMaxSel pts).2)) :
    douglasPeucker pts eps = [pts.getD 0 default, pts.getD (pts.length - 1) default] := by
  conv_lhs => rw [douglasPeucker]
  rw [dif_neg h2]
  dsimp only
  rw [dif_neg hrec]

theorem dp_branch (pts : List Point) (eps : ℚ) (h2 : ¬ pts.length ≤ 2)
    (hrec : gtTol eps (dpMaxSel pts).1 ∧ 0 < (dpMaxSel pts).2) :
    douglasPeucker pts eps =
      (douglasPeucker (pts.take ((dpMaxSel pts).2 + 1)) eps).dropLast ++
        douglasPeucker (pts.drop (dpMaxSel pts).2) eps := by
  conv_lhs => rw [douglasPeucker]
  rw [dif_neg h2]
  dsimp only
  rw [dif_pos hrec]

theorem dpMaxSel_eq (pts : List Point) :
    dpMaxSel pts = (List.range' 1 (pts.length - 2)).foldl (dpStep (fD pts)) (0, 0) :=
  rfl

theorem dpStep_inv (f : ℕ → ℚ) :
    ∀ (l : List ℕ) (acc : ℚ × ℕ), l.Pairwise (fun a b => a < b) →
      (∀ i ∈ l, f i ≤ (l.foldl (dpStep f) acc).1) ∧
      acc.1 ≤ (l.foldl (dpStep f) acc).1 ∧
      (l.foldl (dpStep f) acc = acc ∨
        ((l.foldl (dpStep f) acc).2 ∈ l ∧
         f (l.foldl (dpStep f) acc).2 = (l.foldl (dpStep f) acc).1 ∧
         acc.1 < (l.foldl (dpStep f) acc).1 ∧
         ∀ i ∈ l, i < (l.foldl (dpStep f) acc).2 →
           f i < (l.foldl (dpStep f) acc).1)) := by
  intro l
  induction l with
  | nil => intro acc _; exact ⟨by simp, le_refl _, Or.inl rfl⟩
  | cons a l ih =>
    intro acc hp
    have hpl : l.Pairwise (fun a b => a < b) := hp.of_cons
    have hal : ∀ i ∈ l, a < i := fun i hi => List.rel_of_pairwise_cons hp hi
    simp only [List.foldl_cons]
    by_cases h : acc.1 < f a
    · have hstep : dpStep f acc a = (f a, a) := by unfold dpStep; rw [if_pos h]
      rw [hstep]
      obtain ⟨h1, h2, h3⟩ := ih (f a, a) hpl
      refine ⟨?_, ?_, ?_⟩
      · intro i hi
        rcases List.mem_cons.mp hi with rfl | hi
        · exact h2
        · exact h1 i hi
      · exact le_of_lt (lt_of_lt_of_le h h2)
      · right
        rcases h3 with heq | ⟨hm, hf, hlt, hfirst⟩
        · rw [heq]
          refine ⟨List.mem_cons_self a l, rfl, h, ?_⟩
          intro i hi hia
          rcases List.mem_cons.mp hi with rfl | hi
          · omega
          · exact absurd hia (by have := hal i hi; omega)
        · refine ⟨List.mem_cons_of_mem a hm, hf, lt_of_lt_of_le h (le_of_lt hlt), ?_⟩
          intro i hi hia
          rcases List.mem_cons.mp hi with rfl | hi
          · exact hlt
          · exact hfirst i hi hia
    · have hstep : dpStep f acc a = acc := by unfold dpStep; rw [if_neg h]
      rw [hstep]
      obtain ⟨h1, h2, h3⟩ := ih acc hpl
      refine ⟨?_, h2, ?_⟩
      · intro i hi
        rcases List.mem_cons.mp hi with rfl | hi
        · exact le_trans (le_of_not_lt h) h2
        · exact h1 i hi
      · rcases h3 with heq | ⟨hm, hf, hlt, hfirst⟩
        · exact Or.inl heq
        · right
          refine ⟨List.mem_cons_of_mem a hm, hf, hlt, ?_⟩
          intro i hi hia
          rcases List.mem_cons.mp hi with rfl | hi
          · exact lt_of_le_of_lt (le_of_not_lt h) hlt
          · exact hfirst i hi hia

theorem dpMaxSel_le (pts : List Point) :
    0 ≤ (dpMaxSel pts).1 ∧
    ∀ i, 1 ≤ i → i + 1 < pts.length → fD pts i ≤ (dpMaxSel pts).1 := by
  have hinv := dpStep_inv (fD pts) (List.range' 1 (pts.length - 2)) (0, 0)
    (List.pairwise_lt_range' 1 (pts.length - 2) 1 (by omega))
  rw [← dpMaxSel_eq] at hinv
  refine ⟨hinv.2.1, ?_⟩
  intro i h1 h2
  exact hinv.1 i (by rw [List.mem_range'_1]; omega)

theorem dpMaxSel_cases (pts : List Point) :
    dpMaxSel pts = (0, 0) ∨
      (1 ≤ (dpMaxSel pts).2 ∧ (dpMaxSel pts).2 + 1 < pts.length ∧
       fD pts (dpMaxSel pts).2 = (dpMaxSel pts).1 ∧ 0 < (dpMaxSel pts).1 ∧
       ∀ i, 1 ≤ i → i < (dpMaxSel pts).2 → fD pts i < (dpMaxSel pts).1) := by
  have hinv := dpStep_inv (fD pts) (List.range' 1 (pts.length - 2)) (0, 0)
    (List.pairwise_lt_range' 1 (pts.length - 2) 1 (by omega))
  rw [← dpMaxSel_eq] at hinv
  rcases hinv.2.2 with heq | ⟨hm, hf, hlt, hfirst⟩
  · exact Or.inl heq
  · right
    rw [List.mem_range'_1] at hm
    refine ⟨by omega, by omega, hf, hlt, ?_⟩
    intro i h1 h2
    have him : i ∈ List.range' 1 (pts.length - 2) := by
      rw [List.mem_range'_1]; omega
    exact hfirst i him h2

theorem dpMaxSel_arg (pts : List Point)
    (h : 0 < (dpMaxSel pts).1 ∨ 0 < (dpMaxSel pts).2) :
    1 ≤ (dpMaxSel pts).2 ∧ (dpMaxSel pts).2 + 1 < pts.length ∧
    fD pts (dpMaxSel pts).2 = (dpMaxSel pts).1 ∧ 0 < (dpMaxSel pts).1 ∧
    ∀ i, 1 ≤ i → i < (dpMaxSel pts).2 → fD pts i < (dpMaxSel pts).1 := by
  rcases dpMaxSel_cases pts with heq | hr
  · rw [heq] at h
    rcases h with h | h <;> exact absurd h (by norm_num)
  · exact hr

theorem perpDistSq_nonneg (p a b : Point) : 0 ≤ perpDistSq p a b := by
  unfold perpDistSq
  dsimp only
  split
  · unfold dist2; positivity
  · positivity

theorem perpDistSq_self_left (a b : Point) : perpDistSq a a b = 0 := by
  unfold perpDistSq
  dsimp only
  split
  · unfold dist2; ring
  · rw [show (a.x - a.x) * (b.x - a.x) + (a.y - a.y) * (b.y - a.y) = 0 by ring,
      zero_div]
    ring

theorem perpDistSq_self_right (a b : Point) : perpDistSq b a b = 0 := by
  unfold perpDistSq
  dsimp only
  split
  · rename_i h
    unfold dist2
    rw [show b.x - a.x = 0 by linarith [h.1], show b.y - a.y = 0 by linarith [h.2]]
    ring
  · rename_i h
    have hS : (b.x - a.x) * (b.x - a.x) + (b.y - a.y) * (b.y - a.y) ≠ 0 := by
      intro hz
      apply h
      constructor
      · nlinarith [sq_nonneg (b.x - a.x), sq_nonneg (b.y - a.y)]
      · nlinarith [sq_nonneg (b.x - a.x), sq_nonneg (b.y - a.y)]
    rw [show (b.x - a.x) * (b.x - a.x) + (b.y - a.y) * (b.y - a.y) =
        (b.x - a.x) * (b.x - a.x) + (b.y - a.y) * (b.y - a.y) from rfl]
    rw [div_self hS]
    ring

theorem fD_le_of_mem (pts : List Point) (q : Point) (hq : q ∈ pts) :
    perpDistSq q (pts.getD 0 default) (pts.getD (pts.length - 1) default) ≤
      (dpMaxSel pts).1 := by
  obtain ⟨i, hi, hqi⟩ := List.getElem_of_mem hq
  rcases Nat.eq_zero_or_pos i with rfl | hi1
  · have h0 : pts.getD 0 default = q := by
      rw [List.getD_eq_getElem pts default hi, hqi]
    rw [h0, perpDistSq_self_left]
    exact (dpMaxSel_le pts).1
  · by_cases hlast : i = pts.length - 1
    · have h0 : pts.getD (pts.length - 1) default = q := by
        subst hlast
        rw [List.getD_eq_getElem pts default hi, hqi]
      rw [h0, perpDistSq_self_right]
      exact (dpMaxSel_le pts).1
    · have h2 : i + 1 < pts.length := by omega
      have hle := (dpMaxSel_le pts).2 i hi1 h2
      unfold fD at hle
      rw [List.getD_eq_getElem pts default hi, hqi] at hle
      exact hle

theorem dropLast_head2 {α : Type} : ∀ (l : List α), 2 ≤ l.length →
    l.dropLast.head? = l.head?
  | _ :: _ :: _, _ => rfl

theorem head?_take1 {α : Type} : ∀ (l : List α) (n : ℕ), (l.take (n + 1)).head? = l.head?
  | [], _ => rfl
  | _ :: _, _ => rfl

theorem dp_struct : ∀ (n : ℕ) (pts : List Point) (eps : ℚ), pts.length ≤ n →
    (2 ≤ pts.length → 2 ≤ (douglasPeucker pts eps).length) ∧
    (douglasPeucker pts eps).head? = pts.head? ∧
    (douglasPeucker pts eps).getLast? = pts.getLast? ∧
    List.Sublist (douglasPeucker pts eps) pts := by
  intro n
  induction n using Nat.strong_induction_on with
  | _ n ih =>
    intro pts eps hn
    by_cases h2 : pts.length ≤ 2
    · rw [dp_base pts eps h2]
      exact ⟨fun h => h, rfl, rfl, List.Sublist.refl pts⟩
    · have h3 : 3 ≤ pts.length := by omega
      have h0 : 0 < pts.length := by omega
      by_cases hrec : gtTol eps (dpMaxSel pts).1 ∧ 0 < (dpMaxSel pts).2
      · obtain ⟨hm1, hmn, hfm, hM, hstrict⟩ := dpMaxSel_arg pts (Or.inr hrec.2)
        have htlen : (pts.take ((dpMaxSel pts).2 + 1)).length = (dpMaxSel pts).2 + 1 := by
          rw [List.length_take]; omega
        have ihL := ih (n - 1) (by omega) (pts.take ((dpMaxSel pts).2 + 1)) eps
          (by rw [htlen]; omega)
        have ihR := ih (n - 1) (by omega) (pts.drop (dpMaxSel pts).2) eps
          (by rw [List.length_drop]; omega)
        have hL2 : 2 ≤ (douglasPeucker (pts.take ((dpMaxSel pts).2 + 1)) eps).length :=
          ihL.1 (by rw [htlen]; omega)
        have hR2 : 2 ≤ (douglasPeucker (pts.drop (dpMaxSel pts).2) eps).length :=
          ihR.1 (by rw [List.length_drop]; omega)
        have hLd_ne : (douglasPeucker (pts.take ((dpMaxSel pts).2 + 1)) eps).dropLast ≠ [] :=
          List.length_pos.mp (by rw [List.length_dropLast]; omega)
        have hRt_ne : douglasPeucker (pts.drop (dpMaxSel pts).2) eps ≠ [] :=
          List.length_pos.mp (by omega)
        rw [dp_branch pts eps h2 hrec]
        refine ⟨?_, ?_, ?_, ?_⟩
        · intro _
          rw [List.length_append, List.length_dropLast]
          omega
        · rw [List.head?_append_of_ne_nil _ hLd_ne, dropLast_head2 _ hL2, ihL.2.1,
            head?_take1]
        · rw [List.getLast?_append_of_ne_nil _ hRt_ne, ihR.2.2.1,
            List.getLast?_eq_getElem?, List.getLast?_eq_getElem?, List.getElem?_drop]
          congr 1
          rw [List.length_drop]
          omega
        · have htake_succ : pts.take ((dpMaxSel pts).2 + 1) =
              pts.take (dpMaxSel pts).2 ++ [pts.getD (dpMaxSel pts).2 default] := by
            rw [List.take_succ,
              List.getElem?_eq_getElem (show (dpMaxSel pts).2 < pts.length by omega),
              List.getD_eq_getElem pts default (by omega)]
            rfl
          have hLlast : (douglasPeucker (pts.take ((dpMaxSel pts).2 + 1)) eps).getLast? =
              some (pts.getD (dpMaxSel pts).2 default) := by
            rw [ihL.2.2.1, List.getLast?_eq_getElem?, htlen, Nat.add_sub_cancel,
              List.getElem?_take, if_pos (Nat.lt_succ_self _),
              List.getElem?_eq_getElem (show (dpMaxSel pts).2 < pts.length by omega),
              List.getD_eq_getElem pts default (by omega)]
          have hLne : douglasPeucker (pts.take ((dpMaxSel pts).2 + 1)) eps ≠ [] :=
            List.length_pos.mp (by omega)
          have hLlast' : (douglasPeucker (pts.take ((dpMaxSel pts).2 + 1)) eps).getLast hLne =
              pts.getD (dpMaxSel pts).2 default := by
            have hgl := List.getLast?_eq_getLast
              (douglasPeucker (pts.take ((dpMaxSel pts).2 + 1)) eps) hLne
            rw [hLlast] at hgl
            exact (Option.some_inj.mp hgl).symm
          have hLdecomp : (douglasPeucker (pts.take ((dpMaxSel pts).2 + 1)) eps).dropLast ++
              [pts.getD (dpMaxSel pts).2 default] =
              douglasPeucker (pts.take ((dpMaxSel pts).2 + 1)) eps := by
            rw [← hLlast']
            exact List.dropLast_append_getLast hLne
          have hsubL : List.Sublist (douglasPeucker (pts.take ((dpMaxSel pts).2 + 1)) eps)
              (pts.take (dpMaxSel pts).2 ++ [pts.getD (dpMaxSel pts).2 default]) := by
            rw [← htake_succ]
            exact ihL.2.2.2
          rw [← hLdecomp] at hsubL
          have hsubL' : List.Sublist
              (douglasPeucker (pts.take ((dpMaxSel pts).2 + 1)) eps).dropLast
              (pts.take (dpMaxSel pts).2) :=
            (List.append_sublist_append_right _).mp hsubL
          have hfin := List.Sublist.append hsubL' ihR.2.2.2
          rw [List.take_append_drop] at hfin
          exact hfin
      · rw [dp_two pts eps h2 hrec]
        refine ⟨fun _ => le_refl 2, ?_, ?_, ?_⟩
        · simp only [List.head?_cons]
          rw [List.head?_eq_getElem?, List.getElem?_eq_getElem h0,
            List.getD_eq_getElem pts default h0]
        · simp only [List.getLast?_cons_cons, List.getLast?_singleton]
          rw [List.getLast?_eq_getElem?,
            List.getElem?_eq_getElem (show pts.length - 1 < pts.length by omega),
            List.getD_eq_getElem pts default (by omega)]
        · have h1 : pts.take 1 = [pts.getD 0 default] := by
            rw [List.take_one, List.head?_eq_getElem?, List.getElem?_eq_getElem h0,
              List.getD_eq_getElem pts default h0]
            rfl
          have hmem : pts.getD (pts.length - 1) default ∈ pts.drop 1 := by
            rw [List.mem_iff_getElem?]
            refine ⟨pts.length - 2, ?_⟩
            rw [List.getElem?_drop, show 1 + (pts.length - 2) = pts.length - 1 by omega,
              List.getElem?_eq_getElem (show pts.length - 1 < pts.length by omega),
              List.getD_eq_getElem pts default (by omega)]
          have hfin := List.Sublist.append
            (List.Sublist.refl (pts.take 1)) (List.singleton_sublist.mpr hmem)
          rw [List.take_append_drop, h1] at hfin
          exact hfin

theorem dp_length2 (pts : List Point) (eps : ℚ) (h : 2 ≤ pts.length) :
    2 ≤ (douglasPeucker pts eps).length :=
  (dp_struct pts.length pts eps le_rfl).1 h

theorem dp_head (pts : List Point) (eps : ℚ) :
    (douglasPeucker pts eps).head? = pts.head? :=
  (dp_struct pts.length pts eps le_rfl).2.1

theorem dp_last (pts : List Point) (eps : ℚ) :
    (douglasPeucker pts eps).getLast? = pts.getLast? :=
  (dp_struct pts.length pts eps le_rfl).2.2.1

theorem dp_sub (pts : List Point) (eps : ℚ) :
    List.Sublist (douglasPeucker pts eps) pts :=
  (dp_struct pts.length pts eps le_rfl).2.2.2

theorem dp_take_dropLast_sub (pts : List Point) (eps : ℚ) (m : ℕ)
    (hm1 : 1 ≤ m) (hmn : m < pts.length) :
    List.Sublist (douglasPeucker (pts.take (m + 1)) eps).dropLast (pts.take m) := by
  have htlen : (pts.take (m + 1)).length = m + 1 := by
    rw [List.length_take]; omega
  have htake_succ : pts.take (m + 1) =
      pts.take m ++ [pts.getD m default] := by
    rw [List.take_succ, List.getElem?_eq_getElem hmn,
      List.getD_eq_getElem pts default hmn]
    rfl
  have hL2 : 2 ≤ (douglasPeucker (pts.take (m + 1)) eps).length :=
    dp_length2 _ _ (by rw [htlen]; omega)
  have hLne : douglasPeucker (pts.take (m + 1)) eps ≠ [] :=
    List.length_pos.mp (by omega)
  have hLlast : (douglasPeucker (pts.take (m + 1)) eps).getLast? =
      some (pts.getD m default) := by
    rw [dp_last, List.getLast?_eq_getElem?, htlen, Nat.add_sub_cancel,
      List.getElem?_take, if_pos (Nat.lt_succ_self _),
      List.getElem?_eq_getElem hmn, List.getD_eq_getElem pts default hmn]
  have hLlast' : (douglasPeucker (pts.take (m + 1)) eps).getLast hLne =
      pts.getD m default := by
    have hgl := List.getLast?_eq_getLast (douglasPeucker (pts.take (m + 1)) eps) hLne
    rw [hLlast] at hgl
    exact (Option.some_inj.mp hgl).symm
  have hLdecomp : (douglasPeucker (pts.take (m + 1)) eps).dropLast ++
      [pts.getD m default] = douglasPeucker (pts.take (m + 1)) eps := by
    rw [← hLlast']
    exact List.dropLast_append_getLast hLne
  have hsubL : List.Sublist (douglasPeucker (pts.take (m + 1)) eps)
      (pts.take m ++ [pts.getD m default]) := by
    rw [← htake_succ]
    exact dp_sub _ _
  rw [← hLdecomp] at hsubL
  exact (List.append_sublist_append_right _).mp hsubL

theorem dp_idem_core (eps : ℚ) (pts : List Point) (h3 : 3 ≤ pts.length)
    (M : ℚ) (m : ℕ) (hms : dpMaxSel pts = (M, m)) (hgt : gtTol eps M)
    (hm1 : 1 ≤ m) (hmn : m + 1 < pts.length) (hfm : fD pts m = M) (hM : 0 < M)
    (hstrict : ∀ i, 1 ≤ i → i < m → fD pts i < M)
    (hLidem : douglasPeucker (douglasPeucker (pts.take (m + 1)) eps) eps =
      douglasPeucker (pts.take (m + 1)) eps)
    (hRidem : douglasPeucker (douglasPeucker (pts.drop m) eps) eps =
      douglasPeucker (pts.drop m) eps) :
    douglasPeucker (douglasPeucker pts eps) eps = douglasPeucker pts eps := by
  have h2 : ¬ pts.length ≤ 2 := by omega
  have hM1 : (dpMaxSel pts).1 = M := by rw [hms]
  have hm2 : (dpMaxSel pts).2 = m := by rw [hms]
  have hrec : gtTol eps (dpMaxSel pts).1 ∧ 0 < (dpMaxSel pts).2 := by
    rw [hM1, hm2]
    exact ⟨hgt, by omega⟩
  have hbr := dp_branch pts eps h2 hrec
  rw [hm2] at hbr
  set L := douglasPeucker (pts.take (m + 1)) eps with hL
  set Rt := douglasPeucker (pts.drop m) eps with hRt
  have htlen : (pts.take (m + 1)).length = m + 1 := by
    rw [List.length_take]; omega
  have hL2 : 2 ≤ L.length := by
    rw [hL]
    exact dp_length2 _ _ (by rw [htlen]; omega)
  have hR2 : 2 ≤ Rt.length := by
    rw [hRt]
    exact dp_length2 _ _ (by rw [List.length_drop]; omega)
  have hRne : Rt ≠ [] := List.length_pos.mp (by omega)
  have hLdne : L.dropLast ≠ [] := List.length_pos.mp (by rw [List.length_dropLast]; omega)
  rw [hbr]
  set R := L.dropLast ++ Rt with hR
  have hRlen : R.length = L.length - 1 + Rt.length := by
    rw [hR, List.length_append, List.length_dropLast]
  have hR3 : ¬ R.length ≤ 2 := by omega
  have hRhead : R.head? = pts.head? := by
    rw [← hbr, dp_head]
  have hRlast : R.getLast? = pts.getLast? := by
    rw [← hbr, dp_last]
  have hRsub : List.Sublist R pts := by
    rw [← hbr]
    exact dp_sub pts eps
  have hchord0 : R.getD 0 default = pts.getD 0 default := by
    rw [List.getD_eq_getElem?_getD, List.getD_eq_getElem?_getD,
      ← List.head?_eq_getElem?, ← List.head?_eq_getElem?, hRhead]
  have hchord1 : R.getD (R.length - 1) default = pts.getD (pts.length - 1) default := by
    rw [List.getD_eq_getElem?_getD, List.getD_eq_getElem?_getD,
      ← List.getLast?_eq_getElem?, ← List.getLast?_eq_getElem?, hRlast]
  set k := L.dropLast.length with hk0
  have hkval : k = L.length - 1 := by rw [hk0, List.length_dropLast]
  have hk1 : 1 ≤ k := by omega
  have hkR : k + 1 < R.length := by omega
  have hdropk : R.drop k = Rt := by
    rw [hR, hk0]
    exact List.drop_left _ _
  have hRtHead : Rt.head? = some (pts.getD m default) := by
    rw [hRt, dp_head, List.head?_drop,
      List.getElem?_eq_getElem (show m < pts.length by omega),
      List.getD_eq_getElem pts default (by omega)]
  have hRk : R.getD k default = pts.getD m default := by
    rw [List.getD_eq_getElem?_getD, ← List.head?_drop, hdropk, hRtHead]
    rfl
  have hvalR : ∀ i, 1 ≤ i → i + 1 < R.length → fD R i ≤ M := by
    intro i h1 hi
    unfold fD
    rw [hchord0, hchord1]
    have hiR : i < R.length := by omega
    have hmemR : R.getD i default ∈ pts := by
      apply hRsub.mem
      rw [List.getD_eq_getElem R default hiR]
      exact List.getElem_mem hiR
    have hle := fD_le_of_mem pts (R.getD i default) hmemR
    rw [hM1] at hle
    exact hle
  have hfRk : fD R k = M := by
    unfold fD
    rw [hchord0, hchord1, hRk]
    exact hfm
  have hstrictR : ∀ i, 1 ≤ i → i < k → fD R i < M := by
    intro i h1 hik
    unfold fD
    rw [hchord0, hchord1]
    have hiL : i < L.dropLast.length := by omega
    have hgetRi : R.getD i default = L.dropLast.getD i default := by
      rw [List.getD_eq_getElem?_getD, List.getD_eq_getElem?_getD, hR,
        List.getElem?_append, if_pos hiL]
    have hsubLd : List.Sublist L.dropLast (pts.take m) := by
      rw [hL]
      exact dp_take_dropLast_sub pts eps m hm1 (by omega)
    have hmemTake : L.dropLast.getD i default ∈ pts.take m := by
      apply hsubLd.mem
      rw [List.getD_eq_getElem L.dropLast default hiL]
      exact List.getElem_mem hiL
    obtain ⟨j, hjlen, hji⟩ := List.getElem_of_mem hmemTake
    rw [List.length_take] at hjlen
    have hjm : j < m := lt_of_lt_of_le hjlen (min_le_left _ _)
    have hjl : j < pts.length := lt_of_lt_of_le hjlen (min_le_right _ _)
    have hvali : R.getD i default = pts[j] := by
      rw [hgetRi, ← hji]
      exact List.getElem_take pts
    rcases Nat.eq_zero_or_pos j with rfl | hj1
    · rw [hvali, ← List.getD_eq_getElem pts default hjl, perpDistSq_self_left]
      exact hM
    · have hlt := hstrict j hj1 (by omega)
      unfold fD at hlt
      rw [List.getD_eq_getElem pts default hjl] at hlt
      rw [hvali]
      exact hlt
  have hMR_ge : M ≤ (dpMaxSel R).1 := by
    have hb := (dpMaxSel_le R).2 k hk1 hkR
    rw [hfRk] at hb
    exact hb
  have hMR_le : (dpMaxSel R).1 ≤ M := by
    rcases dpMaxSel_cases R with heq | ⟨hr1, hrint, hfr, _, _⟩
    · rw [heq]
      exact le_of_lt hM
    · rw [← hfr]
      exact hvalR _ hr1 hrint
  have hMR : (dpMaxSel R).1 = M := le_antisymm hMR_le hMR_ge
  obtain ⟨hr1, hrint, hfr, hMr, hfirstR⟩ :=
    dpMaxSel_arg R (Or.inl (by rw [hMR]; exact hM))
  have hkeq : (dpMaxSel R).2 = k := by
    rcases Nat.lt_trichotomy (dpMaxSel R).2 k with hlt | heq | hgt2
    · have hx := hstrictR _ hr1 hlt
      rw [hfr, hMR] at hx
      exact absurd hx (lt_irrefl M)
    · exact heq
    · have hx := hfirstR k hk1 hgt2
      rw [hfRk, hMR] at hx
      exact absurd hx (lt_irrefl M)
  have htakek : R.take (k + 1) = L := by
    rw [hR, List.take_append_eq_append_take,
      List.take_of_length_le (show L.dropLast.length ≤ k + 1 by omega),
      show k + 1 - L.dropLast.length = 1 by omega, List.take_one, hRtHead]
    have htake_succ : pts.take (m + 1) = pts.take m ++ [pts.getD m default] := by
      rw [List.take_succ, List.getElem?_eq_getElem (show m < pts.length by omega),
        List.getD_eq_getElem pts default (by omega)]
      rfl
    have hLne : L ≠ [] := List.length_pos.mp (by omega)
    have hLlast : L.getLast? = some (pts.getD m default) := by
      rw [hL, dp_last, List.getLast?_eq_getElem?, htlen, Nat.add_sub_cancel,
        List.getElem?_take, if_pos (Nat.lt_succ_self _),
        List.getElem?_eq_getElem (show m < pts.length by omega),
        List.getD_eq_getElem pts default (by omega)]
    have hLlast' : L.getLast hLne = pts.getD m default := by
      have hgl := List.getLast?_eq_getLast L hLne
      rw [hLlast] at hgl
      exact (Option.some_inj.mp hgl).symm
    show L.dropLast ++ [pts.getD m default] = L
    rw [← hLlast']
    exact List.dropLast_append_getLast hLne
  have hrecR : gtTol eps (dpMaxSel R).1 ∧ 0 < (dpMaxSel R).2 := by
    rw [hMR, hkeq]
    exact ⟨hgt, by omega⟩
  rw [dp_branch R eps hR3 hrecR, hkeq, htakek, hdropk, hLidem, hRidem]

theorem dp_idem_aux : ∀ (n : ℕ) (pts : List Point) (eps : ℚ), 0 ≤ eps →
    pts.length ≤ n →
    douglasPeucker (douglasPeucker pts eps) eps = douglasPeucker pts eps := by
  intro n
  induction n using Nat.strong_induction_on with
  | _ n ih =>
    intro pts eps heps hn
    by_cases h2 : pts.length ≤ 2
    · simp only [dp_base pts eps h2]
    · by_cases hrec : gtTol eps (dpMaxSel pts).1 ∧ 0 < (dpMaxSel pts).2
      · obtain ⟨hm1, hmn, hfm, hM, hstrict⟩ := dpMaxSel_arg pts (Or.inr hrec.2)
        exact dp_idem_core eps pts (by omega) (dpMaxSel pts).1 (dpMaxSel pts).2
          rfl hrec.1 hm1 hmn hfm hM hstrict
          (ih (n - 1) (by omega) (pts.take ((dpMaxSel pts).2 + 1)) eps heps
            (by rw [List.length_take]; omega))
          (ih (n - 1) (by omega) (pts.drop (dpMaxSel pts).2) eps heps
            (by rw [List.length_drop]; omega))
      · rw [dp_two pts eps h2 hrec]
        exact dp_base _ eps (by simp)

theorem dp_idem (pts : List Point) (eps : ℚ) (heps : 0 ≤ eps) :
    douglasPeucker (douglasPeucker pts eps) eps = douglasPeucker pts eps :=
  dp_idem_aux pts.length pts eps heps le_rfl

/-- Claim C6: Douglas-Peucker simplification is idempotent at every
nonnegative tolerance (for a negative tolerance the source recursion does
not terminate on inputs whose interior points all lie on the first-last
chord, so no return value exists to compare), and sequences of at most 2
points are returned unchanged; stated for `simplifyPolygon`
(`toolDetection.ts`) and the identical `douglasPeucker`
(`paperDetection.ts`). -/
theorem claim_C6 (pts : List Point) (t : ℚ) (ht : 0 ≤ t) :
    simplifyPolygon (simplifyPolygon pts t) t = simplifyPolygon pts t ∧
    douglasPeucker (douglasPeucker pts t) t = douglasPeucker pts t ∧
    (pts.length ≤ 2 → simplifyPolygon pts t = pts) :=
  ⟨dp_idem pts t ht, dp_idem pts t ht, fun h => dp_base pts t h⟩

theorem claim_C6_witness :
    (0 : ℚ) ≤ 2 ∧
    simplifyPolygon (simplifyPolygon
        [⟨0, 0⟩, ⟨1, 5⟩, ⟨2, 0⟩, ⟨3, 5⟩, ⟨4, 0⟩] 2) 2 =
      simplifyPolygon [⟨0, 0⟩, ⟨1, 5⟩, ⟨2, 0⟩, ⟨3, 5⟩, ⟨4, 0⟩] 2 :=
  ⟨by norm_num, (claim_C6 [⟨0, 0⟩, ⟨1, 5⟩, ⟨2, 0⟩, ⟨3, 5⟩, ⟨4, 0⟩] 2 (by norm_num)).1⟩

/-! ### Claim C4: the flood-fill region is the reachable set -/

namespace ToolDetection

/-- Pixel index `y * width + x` of a pixel coordinate pair. -/
def pixIdx (w : ℕ) (p : ℕ × ℕ) : ℕ := p.2 * w + p.1

/-- The neighbour pixel reached from `c` by the integer offset `d`
(as computed by `pushNeighbor`: truncating `Int.toNat` after the
bounds check). -/
def stepPix (c : ℕ × ℕ) (d : ℤ × ℤ) : ℕ × ℕ :=
  (((c.1 : ℤ) + d.1).toNat, ((c.2 : ℤ) + d.2).toNat)

/-- The acceptance test `pushNeighbor` applies to the neighbour of `c`
in direction `d`: in bounds, and colour-close to the seed colour. -/
def acceptedStep (img : Img) (seedC : ℤ × ℤ × ℤ) (t : ℚ) (c : ℕ × ℕ)
    (d : ℤ × ℤ) : Prop :=
  0 ≤ (c.1 : ℤ) + d.1 ∧ (c.1 : ℤ) + d.1 < (img.width : ℤ) ∧
  0 ≤ (c.2 : ℤ) + d.2 ∧ (c.2 : ℤ) + d.2 < (img.height : ℤ) ∧
  closeColor (rgbAt img (pixIdx img.width (stepPix c d))) seedC t = true

/-- The reachability predicate of claim C4: pixels reachable from the
seed by 4-connected steps whose every accepted pixel passes the colour
test against the seed colour (the seed itself is always included). -/
inductive ReachFF (img : Img) (sx sy : ℕ) (t : ℚ) : ℕ × ℕ → Prop where
  | seed : ReachFF img sx sy t (sx, sy)
  | step {c : ℕ × ℕ} {d : ℤ × ℤ} : ReachFF img sx sy t c → d ∈ dirs4 →
      acceptedStep img (rgbAt img (sy * img.width + sx)) t c d →
      ReachFF img sx sy t (stepPix c d)

/-- Core invariant of the flood-fill loop: every queued or collected
pixel is in bounds, the visited bitmap holds exactly the pixel indices
of queued or collected pixels, those indices are pairwise distinct, and
every queued or collected pixel is reachable. -/
def FFCore (img : Img) (sx sy : ℕ) (t : ℚ) (st : FFState) : Prop :=
  (∀ p ∈ st.queue ++ st.region, p.1 < img.width ∧ p.2 < img.height) ∧
  (∀ i, i ∈ st.visited ↔ ∃ p ∈ st.queue ++ st.region, pixIdx img.width p = i) ∧
  ((st.queue ++ st.region).map (pixIdx img.width)).Nodup ∧
  (∀ p ∈ st.queue ++ st.region, ReachFF img sx sy t p)

/-- Closure invariant: every accepted neighbour of an already collected
pixel has been marked visited. -/
def FFClosed (img : Img) (seedC : ℤ × ℤ × ℤ) (t : ℚ) (st : FFState) : Prop :=
  ∀ c ∈ st.region, ∀ d ∈ dirs4, acceptedStep img seedC t c d →
    pixIdx img.width (stepPix c d) ∈ st.visited

theorem pushNeighbor_spec (img : Img) (seedC : ℤ × ℤ × ℤ) (t : ℚ) (c : ℕ × ℕ)
    (st : FFState) (d : ℤ × ℤ) :
    (pushNeighbor img seedC t c st d = st ∧
      (acceptedStep img seedC t c d →
        pixIdx img.width (stepPix c d) ∈ st.visited)) ∨
    (pushNeighbor img seedC t c st d =
        { queue := stepPix c d :: st.queue,
          visited := insert (pixIdx img.width (stepPix c d)) st.visited,
          region := st.region } ∧
      pixIdx img.width (stepPix c d) ∉ st.visited ∧
      acceptedStep img seedC t c d) := by
  unfold pushNeighbor
  dsimp only
  by_cases hb : 0 ≤ (c.1 : ℤ) + d.1 ∧ (c.1 : ℤ) + d.1 < (img.width : ℤ) ∧
      0 ≤ (c.2 : ℤ) + d.2 ∧ (c.2 : ℤ) + d.2 < (img.height : ℤ)
  · rw [if_pos hb]
    by_cases hv : ((c.2 : ℤ) + d.2).toNat * img.width + ((c.1 : ℤ) + d.1).toNat ∈
        st.visited
    · rw [if_pos hv]
      exact Or.inl ⟨rfl, fun _ => hv⟩
    · rw [if_neg hv]
      by_cases hcol : closeColor
          (rgbAt img (((c.2 : ℤ) + d.2).toNat * img.width + ((c.1 : ℤ) + d.1).toNat))
          seedC t = true
      · rw [if_pos hcol]
        exact Or.inr ⟨rfl, hv, hb.1, hb.2.1, hb.2.2.1, hb.2.2.2, hcol⟩
      · rw [if_neg hcol]
        exact Or.inl ⟨rfl, fun hacc => absurd hacc.2.2.2.2 hcol⟩
  · rw [if_neg hb]
    refine Or.inl ⟨rfl, fun hacc => absurd ?_ hb⟩
    exact ⟨hacc.1, hacc.2.1, hacc.2.2.1, hacc.2.2.2.1⟩

end ToolDetection

namespace ToolDetection

theorem pushNeighbor_core (img : Img) (sx sy : ℕ) (t : ℚ) (c : ℕ × ℕ)
    (d : ℤ × ℤ) (hd : d ∈ dirs4) (hreach : ReachFF img sx sy t c) (st : FFState)
    (hcore : FFCore img sx sy t st) :
    FFCore img sx sy t (pushNeighbor img (rgbAt img (sy * img.width + sx)) t c st d) ∧
    st.visited ⊆ (pushNeighbor img (rgbAt img (sy * img.width + sx)) t c st d).visited ∧
    (∀ p ∈ st.queue ++ st.region,
      p ∈ (pushNeighbor img (rgbAt img (sy * img.width + sx)) t c st d).queue ++
        (pushNeighbor img (rgbAt img (sy * img.width + sx)) t c st d).region) ∧
    (pushNeighbor img (rgbAt img (sy * img.width + sx)) t c st d).region = st.region ∧
    (acceptedStep img (rgbAt img (sy * img.width + sx)) t c d →
      pixIdx img.width (stepPix c d) ∈
        (pushNeighbor img (rgbAt img (sy * img.width + sx)) t c st d).visited) := by
  rcases pushNeighbor_spec img (rgbAt img (sy * img.width + sx)) t c st d with
    ⟨heq, hacc⟩ | ⟨heq, hnv, hacc⟩
  · rw [heq]
    exact ⟨hcore, fun i hi => hi, fun p hp => hp, rfl, hacc⟩
  · rw [heq]
    obtain ⟨hb, hv, hn, hr⟩ := hcore
    have hnew_b : (stepPix c d).1 < img.width ∧ (stepPix c d).2 < img.height := by
      unfold stepPix
      obtain ⟨h1, h2, h3, h4, _⟩ := hacc
      constructor <;> [skip; skip] <;> dsimp only <;> omega
    refine ⟨⟨?_, ?_, ?_, ?_⟩, ?_, ?_, rfl, ?_⟩
    · intro p hp
      rcases List.mem_append.mp hp with hp | hp
      · rcases List.mem_cons.mp hp with rfl | hp
        · exact hnew_b
        · exact hb p (List.mem_append.mpr (Or.inl hp))
      · exact hb p (List.mem_append.mpr (Or.inr hp))
    · intro i
      dsimp only
      rw [Finset.mem_insert, hv i]
      constructor
      · rintro (rfl | ⟨p, hp, hpi⟩)
        · exact ⟨stepPix c d, List.mem_append.mpr (Or.inl (List.mem_cons_self _ _)), rfl⟩
        · rcases List.mem_append.mp hp with hp | hp
          · exact ⟨p, List.mem_append.mpr (Or.inl (List.mem_cons_of_mem _ hp)), hpi⟩
          · exact ⟨p, List.mem_append.mpr (Or.inr hp), hpi⟩
      · rintro ⟨p, hp, hpi⟩
        rcases List.mem_append.mp hp with hp | hp
        · rcases List.mem_cons.mp hp with rfl | hp
          · exact Or.inl hpi.symm
          · exact Or.inr ⟨p, List.mem_append.mpr (Or.inl hp), hpi⟩
        · exact Or.inr ⟨p, List.mem_append.mpr (Or.inr hp), hpi⟩
    · dsimp only
      rw [show (stepPix c d :: st.queue) ++ st.region =
          stepPix c d :: (st.queue ++ st.region) from rfl]
      rw [List.map_cons, List.nodup_cons]
      refine ⟨?_, hn⟩
      intro hmem
      apply hnv
      rw [hv]
      rw [List.mem_map] at hmem
      obtain ⟨p, hp, hpi⟩ := hmem
      exact ⟨p, hp, hpi⟩
    · intro p hp
      rcases List.mem_append.mp hp with hp | hp
      · rcases List.mem_cons.mp hp with rfl | hp
        · exact ReachFF.step hreach hd hacc
        · exact hr p (List.mem_append.mpr (Or.inl hp))
      · exact hr p (List.mem_append.mpr (Or.inr hp))
    · intro i hi
      exact Finset.mem_insert_of_mem hi
    · intro p hp
      rcases List.mem_append.mp hp with hp | hp
      · exact List.mem_append.mpr (Or.inl (List.mem_cons_of_mem _ hp))
      · exact List.mem_append.mpr (Or.inr hp)
    · intro _
      exact Finset.mem_insert_self _ _

end ToolDetection

namespace ToolDetection

theorem pushFold_core (img : Img) (sx sy : ℕ) (t : ℚ) (c : ℕ × ℕ)
    (hreach : ReachFF img sx sy t c) :
    ∀ (l : List (ℤ × ℤ)), (∀ d ∈ l, d ∈ dirs4) → ∀ (st : FFState),
    FFCore img sx sy t st →
    FFCore img sx sy t
      (l.foldl (pushNeighbor img (rgbAt img (sy * img.width + sx)) t c) st) ∧
    st.visited ⊆
      (l.foldl (pushNeighbor img (rgbAt img (sy * img.width + sx)) t c) st).visited ∧
    (∀ p ∈ st.queue ++ st.region,
      p ∈ (l.foldl (pushNeighbor img (rgbAt img (sy * img.width + sx)) t c) st).queue ++
        (l.foldl (pushNeighbor img (rgbAt img (sy * img.width + sx)) t c) st).region) ∧
    (l.foldl (pushNeighbor img (rgbAt img (sy * img.width + sx)) t c) st).region =
      st.region ∧
    (∀ d ∈ l, acceptedStep img (rgbAt img (sy * img.width + sx)) t c d →
      pixIdx img.width (stepPix c d) ∈
        (l.foldl (pushNeighbor img (rgbAt img (sy * img.width + sx)) t c) st).visited) := by
  intro l
  induction l with
  | nil =>
    intro _ st hcore
    exact ⟨hcore, fun i hi => hi, fun p hp => hp, rfl, fun d hd => absurd hd
      (List.not_mem_nil d)⟩
  | cons a l ih =>
    intro hsub st hcore
    have ha : a ∈ dirs4 := hsub a (List.mem_cons_self a l)
    obtain ⟨hcore1, hvis1, hmem1, hreg1, hacc1⟩ :=
      pushNeighbor_core img sx sy t c a ha hreach st hcore
    simp only [List.foldl_cons]
    obtain ⟨hcore2, hvis2, hmem2, hreg2, hacc2⟩ :=
      ih (fun d hd => hsub d (List.mem_cons_of_mem a hd)) _ hcore1
    refine ⟨hcore2, fun i hi => hvis2 (hvis1 hi), fun p hp => hmem2 p (hmem1 p hp),
      by rw [hreg2, hreg1], ?_⟩
    intro d hd hacc
    rcases List.mem_cons.mp hd with rfl | hd
    · exact hvis2 (hacc1 hacc)
    · exact hacc2 d hd hacc

end ToolDetection

namespace ToolDetection

theorem ffStep_inv (img : Img) (sx sy : ℕ) (t : ℚ) (c : ℕ × ℕ)
    (rest reg : List (ℕ × ℕ)) (v : Finset ℕ)
    (hcore : FFCore img sx sy t ⟨c :: rest, v, reg⟩)
    (hcl : FFClosed img (rgbAt img (sy * img.width + sx)) t ⟨c :: rest, v, reg⟩) :
    FFCore img sx sy t
      (ffStep img (rgbAt img (sy * img.width + sx)) t c rest ⟨c :: rest, v, reg⟩) ∧
    FFClosed img (rgbAt img (sy * img.width + sx)) t
      (ffStep img (rgbAt img (sy * img.width + sx)) t c rest ⟨c :: rest, v, reg⟩) ∧
    (∀ p ∈ (c :: rest) ++ reg,
      p ∈ (ffStep img (rgbAt img (sy * img.width + sx)) t c rest
          ⟨c :: rest, v, reg⟩).queue ++
        (ffStep img (rgbAt img (sy * img.width + sx)) t c rest
          ⟨c :: rest, v, reg⟩).region) ∧
    (ffStep img (rgbAt img (sy * img.width + sx)) t c rest
      ⟨c :: rest, v, reg⟩).region = reg ++ [c] := by
  have hperm : ((rest ++ (reg ++ [c])) : List (ℕ × ℕ)).Perm ((c :: rest) ++ reg) := by
    have h1 : rest ++ (reg ++ [c]) = (rest ++ reg) ++ [c] := by
      rw [List.append_assoc]
    rw [h1]
    have h2 : (((rest ++ reg) ++ [c]) : List (ℕ × ℕ)).Perm ([c] ++ (rest ++ reg)) :=
      List.perm_append_comm
    simpa using h2
  obtain ⟨hb, hv, hn, hr⟩ := hcore
  have hcore0 : FFCore img sx sy t ⟨rest, v, reg ++ [c]⟩ := by
    refine ⟨?_, ?_, ?_, ?_⟩
    · intro p hp
      exact hb p (hperm.subset hp)
    · intro i
      rw [hv i]
      constructor
      · rintro ⟨p, hp, hpi⟩
        exact ⟨p, hperm.mem_iff.mpr hp, hpi⟩
      · rintro ⟨p, hp, hpi⟩
        exact ⟨p, hperm.mem_iff.mp hp, hpi⟩
    · exact ((hperm.map (pixIdx img.width)).nodup_iff).mpr hn
    · intro p hp
      exact hr p (hperm.subset hp)
  have hreachc : ReachFF img sx sy t c :=
    hr c (List.mem_append.mpr (Or.inl (List.mem_cons_self c rest)))
  obtain ⟨hcoreF, hvisF, hmemF, hregF, haccF⟩ :=
    pushFold_core img sx sy t c hreachc dirs4 (fun d hd => hd) ⟨rest, v, reg ++ [c]⟩
      hcore0
  refine ⟨hcoreF, ?_, ?_, ?_⟩
  · intro p hp d hd hacc
    rw [show (ffStep img (rgbAt img (sy * img.width + sx)) t c rest
        ⟨c :: rest, v, reg⟩).region =
      (dirs4.foldl (pushNeighbor img (rgbAt img (sy * img.width + sx)) t c)
        ⟨rest, v, reg ++ [c]⟩).region from rfl] at hp
    rw [hregF] at hp
    rcases List.mem_append.mp hp with hp | hp
    · exact hvisF (hcl p hp d hd hacc)
    · rcases List.mem_cons.mp hp with rfl | hfalse
      · exact haccF d hd hacc
      · exact absurd hfalse (List.not_mem_nil p)
  · intro p hp
    exact hmemF p (hperm.mem_iff.mpr hp)
  · exact hregF

end ToolDetection

namespace ToolDetection

theorem ffLoop_inv (img : Img) (sx sy : ℕ) (t : ℚ) : ∀ (fuel : ℕ) (st : FFState),
    FFCore img sx sy t st →
    FFClosed img (rgbAt img (sy * img.width + sx)) t st →
    FFCore img sx sy t
      (ffLoop img (rgbAt img (sy * img.width + sx)) t fuel st) ∧
    FFClosed img (rgbAt img (sy * img.width + sx)) t
      (ffLoop img (rgbAt img (sy * img.width + sx)) t fuel st) ∧
    (∀ p ∈ st.queue ++ st.region,
      p ∈ (ffLoop img (rgbAt img (sy * img.width + sx)) t fuel st).queue ++
        (ffLoop img (rgbAt img (sy * img.width + sx)) t fuel st).region) ∧
    ((ffLoop img (rgbAt img (sy * img.width + sx)) t fuel st).queue = [] ∨
      st.region.length + fuel ≤
        (ffLoop img (rgbAt img (sy * img.width + sx)) t fuel st).region.length) := by
  intro fuel
  induction fuel with
  | zero =>
    intro st hcore hcl
    exact ⟨hcore, hcl, fun p hp => hp, Or.inr (Nat.le_of_eq (Nat.add_zero _))⟩
  | succ fuel ih =>
    rintro ⟨q, v, reg⟩ hcore hcl
    rcases q with _ | ⟨c, rest⟩
    · exact ⟨hcore, hcl, fun p hp => hp, Or.inl rfl⟩
    · obtain ⟨hcore1, hcl1, hmem1, hreg1⟩ :=
        ffStep_inv img sx sy t c rest reg v hcore hcl
      obtain ⟨hcoreF, hclF, hmemF, hfuelF⟩ :=
        ih (ffStep img (rgbAt img (sy * img.width + sx)) t c rest
          ⟨c :: rest, v, reg⟩) hcore1 hcl1
      have hred : ffLoop img (rgbAt img (sy * img.width + sx)) t (fuel + 1)
          ⟨c :: rest, v, reg⟩ =
          ffLoop img (rgbAt img (sy * img.width + sx)) t fuel
            (ffStep img (rgbAt img (sy * img.width + sx)) t c rest
              ⟨c :: rest, v, reg⟩) := rfl
      rw [hred]
      refine ⟨hcoreF, hclF, ?_, ?_⟩
      · intro p hp
        exact hmemF p (hmem1 p hp)
      · rcases hfuelF with hq | hlen
        · exact Or.inl hq
        · right
          rw [hreg1, List.length_append] at hlen
          simp only [List.length_singleton] at hlen
          dsimp only
          omega

end ToolDetection

namespace ToolDetection

theorem pixIdx_lt (w h : ℕ) (p : ℕ × ℕ) (hx : p.1 < w) (hy : p.2 < h) :
    pixIdx w p < w * h := by
  unfold pixIdx
  have h1 : p.2 * w + p.1 < (p.2 + 1) * w := by
    have : (p.2 + 1) * w = p.2 * w + w := by ring
    omega
  have h2 : (p.2 + 1) * w ≤ h * w := Nat.mul_le_mul_right w (by omega)
  calc p.2 * w + p.1 < (p.2 + 1) * w := h1
    _ ≤ h * w := h2
    _ = w * h := Nat.mul_comm h w

theorem pixIdx_inj (w : ℕ) (p q : ℕ × ℕ) (hp : p.1 < w) (hq : q.1 < w)
    (h : pixIdx w p = pixIdx w q) : p = q := by
  unfold pixIdx at h
  have hw : 0 < w := by omega
  rw [Nat.add_comm (p.2 * w) p.1, Nat.add_comm (q.2 * w) q.1] at h
  have hx : p.1 = q.1 := by
    have hm := congrArg (fun n => n % w) h
    simpa [Nat.add_mul_mod_self_right, Nat.mod_eq_of_lt hp, Nat.mod_eq_of_lt hq]
      using hm
  have hy : p.2 = q.2 := by
    have hd := congrArg (fun n => n / w) h
    simp only [Nat.add_mul_div_right _ _ hw] at hd
    rw [Nat.div_eq_of_lt hp, Nat.div_eq_of_lt hq] at hd
    omega
  exact Prod.ext hx hy

theorem nodupLen_le (N : ℕ) (l : List ℕ) (hnd : l.Nodup) (hlt : ∀ x ∈ l, x < N) :
    l.length ≤ N := by
  have hsub : l.toFinset ⊆ Finset.range N := by
    intro x hx
    rw [List.mem_toFinset] at hx
    exact Finset.mem_range.mpr (hlt x hx)
  have hcard := Finset.card_le_card hsub
  rw [Finset.card_range, List.toFinset_card_of_nodup hnd] at hcard
  exact hcard

end ToolDetection

namespace ToolDetection

theorem ffRegion_spec (img : Img) (sx sy : ℕ) (t : ℚ)
    (hx : sx < img.width) (hy : sy < img.height) :
    (∀ p, p ∈ (floodFillRegion img sx sy t).region ↔ ReachFF img sx sy t p) ∧
    (floodFillRegion img sx sy t).queue = [] ∧
    (floodFillRegion img sx sy t).region.Nodup := by
  have hinit_core : FFCore img sx sy t
      ⟨[(sx, sy)], {sy * img.width + sx}, []⟩ := by
    refine ⟨?_, ?_, ?_, ?_⟩
    · intro p hp
      simp only [List.append_nil, List.mem_singleton] at hp
      subst hp
      exact ⟨hx, hy⟩
    · intro i
      simp only [Finset.mem_singleton, List.append_nil, List.mem_singleton]
      constructor
      · rintro rfl
        exact ⟨(sx, sy), rfl, rfl⟩
      · rintro ⟨p, rfl, hpi⟩
        exact hpi.symm
    · simp
    · intro p hp
      simp only [List.append_nil, List.mem_singleton] at hp
      subst hp
      exact ReachFF.seed
  have hinit_cl : FFClosed img (rgbAt img (sy * img.width + sx)) t
      ⟨[(sx, sy)], {sy * img.width + sx}, []⟩ := by
    intro c hc
    exact absurd hc (List.not_mem_nil c)
  obtain ⟨hcoreF, hclF, hmemF, hfuelF⟩ :=
    ffLoop_inv img sx sy t (img.width * img.height)
      ⟨[(sx, sy)], {sy * img.width + sx}, []⟩ hinit_core hinit_cl
  have hF : floodFillRegion img sx sy t =
      ffLoop img (rgbAt img (sy * img.width + sx)) t (img.width * img.height)
        ⟨[(sx, sy)], {sy * img.width + sx}, []⟩ := rfl
  rw [hF]
  set F := ffLoop img (rgbAt img (sy * img.width + sx)) t (img.width * img.height)
    ⟨[(sx, sy)], {sy * img.width + sx}, []⟩ with hFdef
  have hqnil : F.queue = [] := by
    rcases hfuelF with hq | hlen
    · exact hq
    · have hlistLe : (F.queue ++ F.region).length ≤ img.width * img.height := by
        have hlt : ∀ x ∈ (F.queue ++ F.region).map (pixIdx img.width),
            x < img.width * img.height := by
          intro x hx'
          rw [List.mem_map] at hx'
          obtain ⟨p, hp, rfl⟩ := hx'
          exact pixIdx_lt _ _ p (hcoreF.1 p hp).1 (hcoreF.1 p hp).2
        have hle := nodupLen_le (img.width * img.height)
          ((F.queue ++ F.region).map (pixIdx img.width)) hcoreF.2.2.1 hlt
        rw [List.length_map] at hle
        exact hle
      rw [List.length_append] at hlistLe
      dsimp only at hlen
      have hq0 : F.queue.length = 0 := by omega
      exact List.eq_nil_of_length_eq_zero hq0
  have hforward : ∀ p, p ∈ F.region → ReachFF img sx sy t p := by
    intro p hp
    exact hcoreF.2.2.2 p (List.mem_append.mpr (Or.inr hp))
  have hbackward : ∀ p, ReachFF img sx sy t p → p ∈ F.region := by
    intro p hreach
    induction hreach with
    | seed =>
      have hs := hmemF (sx, sy) (by simp)
      rw [hqnil] at hs
      simpa using hs
    | step hc hd hacc ihc =>
      rename_i c d
      have hvisN := hclF c ihc d hd hacc
      obtain ⟨q', hq', hqi⟩ := (hcoreF.2.1 _).mp hvisN
      have hq'b := hcoreF.1 q' hq'
      rw [hqnil] at hq'
      simp only [List.nil_append] at hq'
      have hstepb : (stepPix c d).1 < img.width := by
        obtain ⟨h1, h2, _, _, _⟩ := hacc
        unfold stepPix
        dsimp only
        omega
      have heq := pixIdx_inj img.width q' (stepPix c d) hq'b.1 hstepb hqi
      rw [← heq]
      exact hq'
  refine ⟨fun p => ⟨hforward p, hbackward p⟩, hqnil, ?_⟩
  have hnd := hcoreF.2.2.1
  rw [hqnil] at hnd
  simp only [List.nil_append] at hnd
  exact hnd.of_map

end ToolDetection

/-- Claim C4: for every image, in-bounds integer seed pixel and threshold,
the region grown by `floodFillTrace`'s flood-fill loop contains the seed
and equals exactly the set of pixels reachable from the seed by
4-connected steps whose every accepted pixel passes the strict colour
test against the seed colour (`sqrt(colorDist2) < threshold`); the
region's pixels are pairwise distinct, and the iteration cap of
`width * height` never truncates the traversal: the worklist is always
drained before the cap is reached. -/
theorem claim_C4 (img : Img) (sx sy : ℕ) (t : ℚ)
    (hx : sx < img.width) (hy : sy < img.height) :
    (sx, sy) ∈ (ToolDetection.floodFillRegion img sx sy t).region ∧
    (∀ p, p ∈ (ToolDetection.floodFillRegion img sx sy t).region ↔
      ToolDetection.ReachFF img sx sy t p) ∧
    (ToolDetection.floodFillRegion img sx sy t).queue = [] ∧
    (ToolDetection.floodFillRegion img sx sy t).region.Nodup := by
  obtain ⟨hiff, hq, hnd⟩ := ToolDetection.ffRegion_spec img sx sy t hx hy
  exact ⟨(hiff (sx, sy)).mpr ToolDetection.ReachFF.seed, hiff, hq, hnd⟩

theorem claim_C4_witness :
    ((0 : ℕ) < (Img.mk 2 2 fun _ => 100).width ∧
      (0 : ℕ) < (Img.mk 2 2 fun _ => 100).height) ∧
    ((0, 0) ∈ (ToolDetection.floodFillRegion (Img.mk 2 2 fun _ => 100) 0 0 10).region ∧
     (∀ p, p ∈ (ToolDetection.floodFillRegion (Img.mk 2 2 fun _ => 100) 0 0 10).region ↔
       ToolDetection.ReachFF (Img.mk 2 2 fun _ => 100) 0 0 10 p) ∧
     (ToolDetection.floodFillRegion (Img.mk 2 2 fun _ => 100) 0 0 10).queue = [] ∧
     (ToolDetection.floodFillRegion (Img.mk 2 2 fun _ => 100) 0 0 10).region.Nodup) :=
  ⟨⟨by decide, by decide⟩,
    claim_C4 (Img.mk 2 2 fun _ => 100) 0 0 10 (by decide) (by decide)⟩
